import Mathlib

/-
Verification development for the GPdoemd parameter-covariance engine
(GPdoemd/marginal/gp_marginal.py) and the GPdoemd surrogate-model
transform layer (GPdoemd/models/gp_model.py).

Numpy arrays are embedded as row-major lists of rationals (`Mat`), the
standard exact-arithmetic idealisation of the source's floating-point
computations.  Numpy 2-D arrays are rectangular, so well-shaped inputs
have rows of uniform length; reads outside the stored shape use a 0
default and do not occur for well-shaped data.
-/

abbrev Vec := List ℚ
abbrev Mat := List Vec

namespace GPdoemd

/-- Entry `A[i][j]` of a row-major list matrix, with default 0. -/
def entry (A : Mat) (i j : ℕ) : ℚ := (A.getD i []).getD j 0

/-- `A` is a rectangular `a × b` array (numpy shape `(a, b)`). -/
def isShape (A : Mat) (a b : ℕ) : Bool := A.length == a && A.all (fun r => r.length == b)

/-- `np.zeros((a, b))`. -/
def zerosMat (a b : ℕ) : Mat := List.replicate a (List.replicate b 0)

/-- Elementwise matrix sum (numpy `+` on same-shape arrays). -/
def matAdd (A B : Mat) : Mat := List.zipWith (List.zipWith (· + ·)) A B

/-- Scalar times matrix (numpy `c * A`). -/
def scalarMul (c : ℚ) (A : Mat) : Mat := A.map (List.map (c * ·))

def sumListQ (l : List ℚ) : ℚ := l.foldr (· + ·) 0

/-- `np.matmul(A.T, B)` for `A`, `B` with the same number of rows and `D`
columns each; the result is `D × D` with entry `(i,j) = Σ_r A[r][i]*B[r][j]`. -/
def matTmul (A B : Mat) (D : ℕ) : Mat :=
  (List.range D).map fun i => (List.range D).map fun j =>
    sumListQ ((A.zip B).map fun ab => (ab.1.getD i 0) * (ab.2.getD j 0))

/-- View a square list matrix as a Mathlib matrix over `Fin A.length`. -/
def toFinMat (A : Mat) : Matrix (Fin A.length) (Fin A.length) ℚ :=
  fun i j => (A.getD i []).getD j 0

/-- Back from a Mathlib matrix to a row-major list matrix. -/
def matFromFin {n : ℕ} (M : Matrix (Fin n) (Fin n) ℚ) : Mat :=
  List.ofFn fun i => List.ofFn fun j => M i j

/-- `np.linalg.inv`: the inverse of a square matrix; `none` models the
`LinAlgError` numpy raises when the matrix is singular. -/
def npLinalgInv (A : Mat) : Option Mat :=
  if (toFinMat A).det = 0 then none
  else some (matFromFin (((toFinMat A).det)⁻¹ • (toFinMat A).adjugate))

/-- All 0/1 patterns of length `n`, in lexicographic order. -/
def allPatterns : ℕ → List Vec
  | 0 => [[]]
  | n + 1 => (allPatterns n).map (fun p => 0 :: p) ++ (allPatterns n).map (fun p => 1 :: p)

/-- Modelled from the spec: `binary_dimensions` lives in `GPdoemd/utils`,
which is not under src/.  Per spec §4.1 it returns the group list `R`, the
ascending non-binary column indices `I`, and the per-row group index `J`;
per spec §3 a group may have zero rows (its oracle is then absent), so `R`
ranges over all binary patterns of the binary columns, ordered
lexicographically, and `J[i]` is the index of row `i`'s binary pattern. -/
def binary_dimensions (Zdata : Mat) (binvar : List ℕ) : List ℕ × List ℕ × List ℕ :=
  let ncols := (Zdata.headD []).length
  let lb := binvar.length
  let I := (List.range ncols).filter (fun i => !(binvar.contains i))
  let pats := allPatterns lb
  let J := Zdata.map (fun z => pats.findIdx (fun p => p == binvar.map (fun i => z.getD i 0)))
  (List.range (2 ^ lb), I, J)

/-- Column selection `X[:, I]`. -/
def colSelect (X : Mat) (I : List ℕ) : Mat := X.map (fun row => I.map (fun i => row.getD i 0))

/-- Rows of `X` whose group index in `J` is `r` (numpy boolean-mask read `X[J==r]`). -/
def selectRows (J : List ℕ) (r : ℕ) (X : Mat) : Mat :=
  ((X.zip J).filter (fun xj => xj.2 == r)).map Prod.fst

/-- Masked row assignment `dmu[J==r] = new`: rows of `dmu` at positions where
`J` equals `r` are replaced by the successive rows of `new`. -/
def scatterRows (r : ℕ) : List ℕ → Mat → Mat → Mat
  | _, [], _ => []
  | [], dmu, _ => dmu
  | j :: js, d :: ds, new =>
    if j == r then
      match new with
      | [] => d :: scatterRows r js ds []
      | n :: ns => n :: scatterRows r js ds ns
    else d :: scatterRows r js ds new

/-- The regression oracle interface (external collaborator, GPy regression):
`predictive_gradients z` is the gradient of the posterior mean with respect
to the joint input, evaluated at the single joint point `z`. -/
structure Oracle where
  predictive_gradients : Vec → Vec

/-- Python-level error outcomes of `compute_param_covar`. -/
inductive CovarError where
  | singularNoise
  | nullOracleAccess
  | singularInformation
  | assertError
deriving DecidableEq, Repr

/-- A Python value passed to the `Sigma` property setter. -/
inductive PyVal where
  | ndarray : Mat → PyVal
  | pynone : PyVal
  | pyfloat : ℚ → PyVal

/-- The measurement noise model argument: scalar, per-output 1-D vector, or
full covariance matrix. -/
inductive MeasNoise where
  | scalar : ℚ → MeasNoise
  | vec : Vec → MeasNoise
  | mat : Mat → MeasNoise

/-- `meas_noise_var.ndim == 1` after the scalar case has been expanded. -/
def MeasNoise.isVecCase : MeasNoise → Bool
  | .scalar _ => true
  | .vec _ => true
  | .mat _ => false

/-- `np.diag v`. -/
def diagMat (v : Vec) : Mat :=
  (List.range v.length).map fun i => (List.range v.length).map fun j =>
    if i == j then v.getD i 0 else 0

/-- The inverted measurement-noise matrix `imeasvar`: `np.diag(1./v)` in the
1-D case, `np.linalg.inv` in the full-matrix case (`SingularNoiseError`
when that inverse fails). -/
def buildImeasvar (E : ℕ) (mnv : MeasNoise) : Except CovarError Mat :=
  match mnv with
  | .scalar s => .ok (diagMat ((List.replicate E s).map (fun x => 1 / x)))
  | .vec v => .ok (diagMat (v.map (fun x => 1 / x)))
  | .mat M =>
    match npLinalgInv M with
    | none => .error .singularNoise
    | some W => .ok W

/-- The marginaliser state of `GPMarginal.__init__`: the oracle table
`gps` (indexed output × binary group, `none` for groups with no fitted
oracle), the transformed parameter mean, the binary variable indices, and
the stored `_Sigma` attribute (absent until set). -/
structure GPMarginal where
  gps : List (List (Option Oracle))
  param_mean : Vec
  bin_var : List ℕ
  Sigma_stored : Option Mat := none

/-- `GPMarginal.__init__(model, param_mean)`: copies the model's oracle
table and binary variable indices; `_Sigma` is not set. -/
def GPMarginal.init (gps : List (List (Option Oracle))) (param_mean : Vec)
    (bin_var : List ℕ) : GPMarginal :=
  { gps := gps, param_mean := param_mean, bin_var := bin_var, Sigma_stored := none }

/-- The `Sigma` property getter: `None` when `_Sigma` has not been set. -/
def GPMarginal.Sigma (m : GPMarginal) : Option Mat := m.Sigma_stored

/-- The `Sigma` property setter: asserts the value is an `np.ndarray` of
shape `(dim_p, dim_p)` with `dim_p = len(param_mean)`; a failing assert
(`none`) leaves the attribute untouched. -/
def GPMarginal.Sigma_set (m : GPMarginal) (v : PyVal) : Option GPMarginal :=
  match v with
  | .ndarray M =>
    if isShape M m.param_mean.length m.param_mean.length then
      some { m with Sigma_stored := some M }
    else none
  | _ => none

/-- `GPMarginal.get_Z`: pair each row of `X` with the stored parameter mean. -/
def get_Z (pm : Vec) (X : Mat) : Mat := X.map (fun x => x ++ pm)

/-- `GPMarginal.d_mu_d_p`: gradient of the oracle's posterior mean with
respect to the parameter block — `gp.predictive_gradients(Z)[0][:, dim:, 0]`
with `dim = X.shape[1]`. -/
def d_mu_d_p (pm : Vec) (gp : Oracle) (X : Mat) : Mat :=
  let dim := (X.headD []).length
  (get_Z pm X).map fun z => (gp.predictive_gradients z).drop dim

/-- One group step of the nested `get_d_mu_d_p` of `compute_param_covar`:
group `r` is skipped when no row of the query set lies in it
(`not np.any(J==r)`); otherwise the rows of group `r` are overwritten with
`d_mu_d_p(gps[r], X[J==r])`.  Reading `gps[r]` when that entry is `None`
is the Python crash (`AttributeError` inside `d_mu_d_p`), modelled as the
`nullOracleAccess` error. -/
def dmuStep (pm : Vec) (gps_e : List (Option Oracle)) (J : List ℕ) (X : Mat)
    (dmu : Mat) (r : ℕ) : Except CovarError Mat :=
  if J.contains r then
    match gps_e.getD r none with
    | none => .error .nullOracleAccess
    | some gp => .ok (scatterRows r J dmu (d_mu_d_p pm gp (selectRows J r X)))
  else .ok dmu

/-- The nested `get_d_mu_d_p` of `compute_param_covar`: start from
`np.zeros((len X, D))` and run `dmuStep` over the groups in `R`. -/
def get_d_mu_d_p (pm : Vec) (gps_e : List (Option Oracle)) (R J : List ℕ)
    (X : Mat) (D : ℕ) : Except CovarError Mat :=
  R.foldlM (dmuStep pm gps_e J X) (X.map fun _ => List.replicate D 0)

/-- The cross-output accumulation of `compute_param_covar` for a fixed
`e1`: for `e2` in `range(e1+1, E)`, skip when `imeasvar[e1,e2] == 0`, else
add `imeasvar[e1,e2]·dmu1ᵀdmu2 + imeasvar[e2,e1]·dmu2ᵀdmu1`. -/
def crossTerms (pm : Vec) (gps : List (List (Option Oracle))) (R J : List ℕ)
    (X : Mat) (imeasvar : Mat) (E D e1 : ℕ) (dmu1 : Mat) (iA : Mat) :
    Except CovarError Mat :=
  (List.range' (e1 + 1) (E - (e1 + 1))).foldlM (fun iA e2 =>
    if entry imeasvar e1 e2 = 0 then .ok iA
    else do
      let dmu2 ← get_d_mu_d_p pm (gps.getD e2 []) R J X D
      .ok (matAdd (matAdd iA (scalarMul (entry imeasvar e1 e2) (matTmul dmu1 dmu2 D)))
            (scalarMul (entry imeasvar e2 e1) (matTmul dmu2 dmu1 D)))) iA

/-- The information-matrix accumulation loop of `compute_param_covar`:
`iA = Σ_{e1} imeasvar[e1,e1]·dmu1ᵀdmu1` plus, in the full-matrix noise
case only, the symmetric cross contributions. -/
def computeIA (pm : Vec) (gps : List (List (Option Oracle))) (R J : List ℕ)
    (X : Mat) (imeasvar : Mat) (vecCase : Bool) (E D : ℕ) :
    Except CovarError Mat :=
  (List.range E).foldlM (fun iA e1 => do
    let dmu1 ← get_d_mu_d_p pm (gps.getD e1 []) R J X D
    let iA1 := matAdd iA (scalarMul (entry imeasvar e1 e1) (matTmul dmu1 dmu1 D))
    if vecCase then .ok iA1
    else crossTerms pm gps R J X imeasvar E D e1 dmu1 iA1) (zerosMat D D)

/-- `compute_param_covar` up to (and including) the accumulated
information matrix `iA`: partition the query rows by the binary variables,
keep the non-binary columns, invert the measurement noise, accumulate. -/
def cpcIA (m : GPMarginal) (Xdata : Mat) (mnv : MeasNoise) : Except CovarError Mat :=
  let E := m.gps.length
  let D := m.param_mean.length
  let RIJ := binary_dimensions Xdata m.bin_var
  let X := colSelect Xdata RIJ.2.1
  match buildImeasvar E mnv with
  | .error e => .error e
  | .ok imeasvar => computeIA m.param_mean m.gps RIJ.1 RIJ.2.2 X imeasvar mnv.isVecCase E D

/-- `GPMarginal.compute_param_covar(Xdata, meas_noise_var)`: accumulate
`iA`, invert it (`singularInformation` models the `LinAlgError` of
`np.linalg.inv`), and store the result through the `Sigma` setter.  The
second component is the engine state after the call; the source mutates
`self` only in the final `self.Sigma = ...` assignment, so every error
path returns the state unchanged. -/
def compute_param_covar (m : GPMarginal) (Xdata : Mat) (mnv : MeasNoise) :
    Except CovarError Unit × GPMarginal :=
  match cpcIA m Xdata mnv with
  | .error e => (.error e, m)
  | .ok iA =>
    match npLinalgInv iA with
    | none => (.error .singularInformation, m)
    | some S =>
      match m.Sigma_set (.ndarray S) with
      | none => (.error .assertError, m)
      | some m' => (.ok (), m')

/-- Result of a `GPModel` transform call: the source returns `np.NaN`
(after a `warnings.warn`) when a required statistic is missing, and the
transformed array otherwise. -/
inductive TransResult where
  | nan : TransResult
  | val : Mat → TransResult
deriving DecidableEq

/-- A Python kernel class argument to `set_kernels`; modelled as a tag.
All values model subclasses of `GPy.kern.Kern`, so the setters'
`issubclass` asserts pass. -/
abbrev KernClass := ℕ

/-- Python attribute-access error (`AttributeError`). -/
inductive PyError where
  | attributeError
deriving DecidableEq

/-- The `GPModel` state relevant to the transform and kernel layer:
configured dimensions, the normalisation statistics (attributes that exist
only once training data has been set, hence `Option`), and the stored
`_kern_x` / `_kern_p` attributes. -/
structure GPModel where
  dim_x : ℕ
  dim_p : ℕ
  num_outputs : ℕ
  binary_variables : List ℕ
  zmin : Option Vec := none
  zmax : Option Vec := none
  ymean : Option Vec := none
  ystd : Option Vec := none
  kern_x_attr : Option KernClass := none
  kern_p_attr : Option KernClass := none

/-- `GPModel.box_trans`: forward `(X - xmin)/(xmax - xmin)`, reverse
`xmin + X*(xmax - xmin)`, broadcast over the rows of `X`. -/
def box_trans (X : Mat) (xmin xmax : Vec) (reverse : Bool) : Mat :=
  X.map fun row => (row.zip (xmin.zip xmax)).map fun t =>
    if reverse then t.2.1 + t.1 * (t.2.2 - t.2.1) else (t.1 - t.2.1) / (t.2.2 - t.2.1)

/-- `GPModel.box_var_trans`: divide (multiply in reverse) by `(xmax-xmin)²`. -/
def box_var_trans (X : Mat) (xmin xmax : Vec) (reverse : Bool) : Mat :=
  X.map fun row => (row.zip (xmin.zip xmax)).map fun t =>
    if reverse then t.1 * (t.2.2 - t.2.1) ^ 2 else t.1 / (t.2.2 - t.2.1) ^ 2

/-- `GPModel.box_cov_trans`: divide (multiply in reverse) entry `(i,j)` by
`m_i * m_j` with `m = xmax - xmin` (the outer product `m[:,None]*m[None,:]`). -/
def box_cov_trans (X : Mat) (xmin xmax : Vec) (reverse : Bool) : Mat :=
  (X.zip ((xmin.zip xmax).map fun p => p.2 - p.1)).map fun rmi =>
    (rmi.1.zip ((xmin.zip xmax).map fun p => p.2 - p.1)).map fun vmj =>
      if reverse then vmj.1 * (rmi.2 * vmj.2) else vmj.1 / (rmi.2 * vmj.2)

/-- `GPModel.mean_trans`: forward `(X - mean)/std`, reverse `mean + X*std`. -/
def mean_trans (X : Mat) (mean std : Vec) (reverse : Bool) : Mat :=
  X.map fun row => (row.zip (mean.zip std)).map fun t =>
    if reverse then t.2.1 + t.1 * t.2.2 else (t.1 - t.2.1) / t.2.2

/-- `GPModel.mean_var_trans`: divide (multiply in reverse) by `std²`. -/
def mean_var_trans (X : Mat) (mean std : Vec) (reverse : Bool) : Mat :=
  X.map fun row => (row.zip (mean.zip std)).map fun t =>
    if reverse then t.1 * t.2.2 ^ 2 else t.1 / t.2.2 ^ 2

/-- `GPModel.mean_cov_trans`: divide (multiply in reverse) entry `(i,j)` by
`std_i * std_j`. -/
def mean_cov_trans (X : Mat) (mean std : Vec) (reverse : Bool) : Mat :=
  (X.zip std).map fun rsi => (rsi.1.zip std).map fun vsj =>
    if reverse then vsj.1 * (rsi.2 * vsj.2) else vsj.1 / (rsi.2 * vsj.2)

/-- `GPModel.transform`: the `_none_check` guard — when a required statistic
is `None` the call warns and returns `np.NaN` (`TransResult.nan`);
otherwise it applies the given transform.  The data argument itself is an
array at every call site in the source. -/
def GPModel.transform (trans : Mat → Vec → Vec → Bool → Mat) (X : Mat)
    (x1 x2 : Option Vec) (reverse : Bool) : TransResult :=
  match x1, x2 with
  | some a, some b => .val (trans X a b reverse)
  | _, _ => .nan

/-- `GPModel.backtransform`: `transform` with `reverse=True`. -/
def GPModel.backtransform (trans : Mat → Vec → Vec → Bool → Mat) (X : Mat)
    (x1 x2 : Option Vec) : TransResult :=
  GPModel.transform trans X x1 x2 true

def GPModel.xmin (m : GPModel) : Option Vec := m.zmin.map (·.take m.dim_x)
def GPModel.xmax (m : GPModel) : Option Vec := m.zmax.map (·.take m.dim_x)
def GPModel.pmin (m : GPModel) : Option Vec := m.zmin.map (·.drop m.dim_x)
def GPModel.pmax (m : GPModel) : Option Vec := m.zmax.map (·.drop m.dim_x)

def GPModel.transform_x (m : GPModel) (X : Mat) : TransResult :=
  GPModel.transform box_trans X m.xmin m.xmax false
def GPModel.backtransform_x (m : GPModel) (X : Mat) : TransResult :=
  GPModel.backtransform box_trans X m.xmin m.xmax
def GPModel.transform_p (m : GPModel) (P : Mat) : TransResult :=
  GPModel.transform box_trans P m.pmin m.pmax false
def GPModel.backtransform_p (m : GPModel) (P : Mat) : TransResult :=
  GPModel.backtransform box_trans P m.pmin m.pmax
def GPModel.transform_z (m : GPModel) (Z : Mat) : TransResult :=
  GPModel.transform box_trans Z m.zmin m.zmax false
def GPModel.backtransform_z (m : GPModel) (Z : Mat) : TransResult :=
  GPModel.backtransform box_trans Z m.zmin m.zmax
def GPModel.transform_y (m : GPModel) (Y : Mat) : TransResult :=
  GPModel.transform mean_trans Y m.ymean m.ystd false
def GPModel.backtransform_y (m : GPModel) (Y : Mat) : TransResult :=
  GPModel.backtransform mean_trans Y m.ymean m.ystd
def GPModel.transform_p_var (m : GPModel) (C : Mat) : TransResult :=
  GPModel.transform box_var_trans C m.pmin m.pmax false
def GPModel.backtransform_p_var (m : GPModel) (C : Mat) : TransResult :=
  GPModel.backtransform box_var_trans C m.pmin m.pmax
def GPModel.transform_p_cov (m : GPModel) (C : Mat) : TransResult :=
  GPModel.transform box_cov_trans C m.pmin m.pmax false
def GPModel.backtransform_p_cov (m : GPModel) (C : Mat) : TransResult :=
  GPModel.backtransform box_cov_trans C m.pmin m.pmax
def GPModel.transform_y_var (m : GPModel) (C : Mat) : TransResult :=
  GPModel.transform mean_var_trans C m.ymean m.ystd false
def GPModel.backtransform_y_var (m : GPModel) (C : Mat) : TransResult :=
  GPModel.backtransform mean_var_trans C m.ymean m.ystd
def GPModel.transform_y_cov (m : GPModel) (C : Mat) : TransResult :=
  GPModel.transform mean_cov_trans C m.ymean m.ystd false
def GPModel.backtransform_y_cov (m : GPModel) (C : Mat) : TransResult :=
  GPModel.backtransform mean_cov_trans C m.ymean m.ystd

/-- The `kern_x` property getter: `None` when `_kern_x` has not been set. -/
def GPModel.kern_x (m : GPModel) : Option KernClass := m.kern_x_attr

/-- The `kern_p` property getter, exactly as written in the source:
`None if not hasattr(self,'_kern_p') else self._kern_x` — it tests the
`_kern_p` attribute but returns `_kern_x` (an `AttributeError` when
`_kern_p` exists and `_kern_x` does not). -/
def GPModel.kern_p (m : GPModel) : Except PyError (Option KernClass) :=
  match m.kern_p_attr with
  | none => .ok none
  | some _ =>
    match m.kern_x_attr with
    | none => .error .attributeError
    | some k => .ok (some k)

/-- The `kern_x` property setter: a `None` value is ignored, any other
value (a `Kern` subclass) is stored in `_kern_x`. -/
def GPModel.kern_x_set (m : GPModel) (value : Option KernClass) : GPModel :=
  match value with
  | none => m
  | some v => { m with kern_x_attr := some v }

/-- The `kern_p` property setter: a `None` value is ignored, any other
value (a `Kern` subclass) is stored in `_kern_p`. -/
def GPModel.kern_p_set (m : GPModel) (value : Option KernClass) : GPModel :=
  match value with
  | none => m
  | some v => { m with kern_p_attr := some v }

/-- `GPModel.set_kernels(kern_x, kern_p)`: assign both kernel properties. -/
def GPModel.set_kernels (m : GPModel) (kx kp : Option KernClass) : GPModel :=
  (m.kern_x_set kx).kern_p_set kp

/-- The oracle table built by `GPModel.gp_surrogate`: for each output `e`
and each binary group `r`, `None` when the training data has no row in
group `r` (`if not np.any(Jr)`), else an oracle fitted (by the external
`GPy.models.GPRegression`, abstracted as `fit`) to the group's rows of the
transformed training data restricted to the non-binary columns and to
output column `e`. -/
def gp_surrogate_gps (fit : Mat → Mat → Oracle) (Z Y : Mat) (binvar : List ℕ)
    (num_outputs : ℕ) : List (List (Option Oracle)) :=
  let RIJ := binary_dimensions Z binvar
  (List.range num_outputs).map fun e =>
    RIJ.1.map fun r =>
      if RIJ.2.2.contains r then
        some (fit (colSelect (selectRows RIJ.2.2 r Z) RIJ.2.1)
          (colSelect (selectRows RIJ.2.2 r Y) [e]))
      else none

/-- A (list) matrix equal to its transpose, stated entrywise over all
natural indices (out-of-range entries read 0 on both sides). -/
def symmMat (S : Mat) : Prop := ∀ i j, entry S i j = entry S j i

/-- The measurement-noise model is symmetric: always in the scalar and
per-output-vector cases, entrywise in the full-matrix case. -/
def MeasNoise.symm : MeasNoise → Prop
  | .scalar _ => True
  | .vec _ => True
  | .mat M => symmMat M

/-- The engine's `Sigma` state invariant: absent, or a `dim_p × dim_p`
array with `dim_p = len(param_mean)`. -/
def SigmaInvariant (m : GPMarginal) : Prop :=
  m.Sigma = none ∨
    ∃ M, m.Sigma = some M ∧ isShape M m.param_mean.length m.param_mean.length = true

/-- The spec's independent-noise accumulation, written from the spec's
words for comparison with the engine's loop: the information matrix is
the sum over outputs `e` of `(1/var_e) · dmu_eᵀ · dmu_e`, with no
cross-output term of any kind. -/
def perOutputOnlyIA (v : Vec) (dmus : List Mat) (D : ℕ) : Mat :=
  (List.range dmus.length).foldl
    (fun acc e =>
      matAdd acc (scalarMul (1 / v.getD e 0) (matTmul (dmus.getD e []) (dmus.getD e []) D)))
    (zerosMat D D)

/-! ### Concrete witness inputs -/

/-- The concrete engine used by the C6 witness: a previously stored
`Sigma`, and an oracle whose parameter gradient is identically zero. -/
def mC6 : GPMarginal :=
  { gps := [[some ⟨fun _ => [0, 0]⟩]], param_mean := [0], bin_var := [],
    Sigma_stored := some [[5]] }

/-- The concrete engine used by the C5 witness: an oracle whose
posterior-mean gradient is identically zero in the parameter direction. -/
def mC5 : GPMarginal := GPMarginal.init [[some ⟨fun _ => [3, 0]⟩]] [0] []

/-- The oracle table of the C2 counterexample, built by `gp_surrogate` from
a training set whose single row lies in binary group 0 (binary column 0):
group 1 gets the null oracle.  The external regression fit is abstracted
by a constant-gradient oracle. -/
def gpsC2 : List (List (Option Oracle)) :=
  gp_surrogate_gps (fun _ _ => ⟨fun _ => [1, 1]⟩) [[0, 2]] [[1]] [0] 1

/-- The engine of the C2 counterexample. -/
def mC2 : GPMarginal := GPMarginal.init gpsC2 [0] [0]

/-- Oracles of the C4 witness: two outputs with proportional (perfectly
correlated) parameter sensitivities. -/
def gC4a : Oracle := ⟨fun _ => [0, 2]⟩

def gC4b : Oracle := ⟨fun _ => [0, 4]⟩

def mC4 : GPMarginal := GPMarginal.init [[some gC4a], [some gC4b]] [0] []

def dmusC4 : List Mat := [[[2]], [[4]]]

/-- The constant-gradient oracle of the C1 witness (`b = 2`). -/
def gpC1 : Oracle := ⟨fun _ => [0, 2]⟩

/-- The concrete model of the C7 witness, with nondegenerate statistics. -/
def mC7 : GPModel :=
  { dim_x := 1, dim_p := 1, num_outputs := 1, binary_variables := [],
    zmin := some [0, 1], zmax := some [2, 3], ymean := some [5], ystd := some [2] }

/-- The engine for the C3 witness: gradient `[1]`, so `iA = [[1]]` with
inverse `[[1]]`. -/
def mC3 : GPMarginal := GPMarginal.init [[some ⟨fun _ => [3, 1]⟩]] [0] []

/-! ### Evaluation and inversion helper lemmas -/

theorem exceptOkBind {ε α β : Type} (a : α) (f : α → Except ε β) :
    (Except.ok a : Except ε α) >>= f = f a := rfl

theorem exceptErrBind {ε α β : Type} (e : ε) (f : α → Except ε β) :
    (Except.error e : Except ε α) >>= f = .error e := rfl

theorem toFinMat_singleton_det (a : ℚ) : (toFinMat [[a]]).det = a := by
  rw [Matrix.det_fin_one]; rfl

theorem npLinalgInv_det_zero {A : Mat} (h : (toFinMat A).det = 0) : npLinalgInv A = none := by
  unfold npLinalgInv; rw [if_pos h]

theorem npLinalgInv_det_ne {A : Mat} (h : (toFinMat A).det ≠ 0) :
    npLinalgInv A = some (matFromFin (((toFinMat A).det)⁻¹ • (toFinMat A).adjugate)) := by
  unfold npLinalgInv; rw [if_neg h]

theorem npLinalgInv_singleton {a : ℚ} (h : a ≠ 0) : npLinalgInv [[a]] = some [[a⁻¹]] := by
  have hdet : (toFinMat [[a]]).det ≠ 0 := by rw [toFinMat_singleton_det]; exact h
  rw [npLinalgInv_det_ne hdet]
  congr 1
  rw [toFinMat_singleton_det, Matrix.adjugate_fin_one]
  simp [matFromFin, List.ofFn_succ, Matrix.smul_apply, Matrix.one_apply]

/-! ### Equation lemmas for the branches of compute_param_covar -/

theorem cpc_err {m : GPMarginal} {X : Mat} {mnv : MeasNoise} {e : CovarError}
    (h : cpcIA m X mnv = .error e) : compute_param_covar m X mnv = (.error e, m) := by
  unfold compute_param_covar; rw [h]

theorem cpc_sing {m : GPMarginal} {X : Mat} {mnv : MeasNoise} {iA : Mat}
    (h1 : cpcIA m X mnv = .ok iA) (h2 : npLinalgInv iA = none) :
    compute_param_covar m X mnv = (.error .singularInformation, m) := by
  unfold compute_param_covar; simp only [h1, h2]

theorem cpc_assert {m : GPMarginal} {X : Mat} {mnv : MeasNoise} {iA S : Mat}
    (h1 : cpcIA m X mnv = .ok iA) (h2 : npLinalgInv iA = some S)
    (h3 : m.Sigma_set (.ndarray S) = none) :
    compute_param_covar m X mnv = (.error .assertError, m) := by
  unfold compute_param_covar; simp only [h1, h2, h3]

theorem cpc_ok {m : GPMarginal} {X : Mat} {mnv : MeasNoise} {iA S : Mat} {m' : GPMarginal}
    (h1 : cpcIA m X mnv = .ok iA) (h2 : npLinalgInv iA = some S)
    (h3 : m.Sigma_set (.ndarray S) = some m') :
    compute_param_covar m X mnv = (.ok (), m') := by
  unfold compute_param_covar; simp only [h1, h2, h3]

/-- Inversion on the `Sigma` setter. -/
theorem Sigma_set_inv {m : GPMarginal} {v : PyVal} {m' : GPMarginal}
    (h : m.Sigma_set v = some m') :
    ∃ M, v = .ndarray M ∧ isShape M m.param_mean.length m.param_mean.length = true ∧
      m' = { m with Sigma_stored := some M } := by
  cases v with
  | ndarray M =>
    simp only [GPMarginal.Sigma_set] at h
    by_cases hs : isShape M m.param_mean.length m.param_mean.length = true
    · rw [if_pos hs] at h
      exact ⟨M, rfl, hs, (Option.some_injective _ h).symm⟩
    · rw [if_neg hs] at h; exact absurd h (by simp)
  | pynone => exact absurd h (by simp [GPMarginal.Sigma_set])
  | pyfloat q => exact absurd h (by simp [GPMarginal.Sigma_set])

/-- C8: querying any transform before the required normalization statistics
exist does not raise: the call warns and returns the defined
"not computable" value `np.NaN` (`TransResult.nan`), never zero and never
an exception. -/
theorem C8_missing_stats_transforms_return_nan (m : GPModel) (X : Mat)
    (hz : m.zmin = none) (hy : m.ymean = none) :
    m.transform_x X = .nan ∧ m.backtransform_x X = .nan ∧
    m.transform_p X = .nan ∧ m.backtransform_p X = .nan ∧
    m.transform_z X = .nan ∧ m.backtransform_z X = .nan ∧
    m.transform_y X = .nan ∧ m.backtransform_y X = .nan ∧
    m.transform_p_var X = .nan ∧ m.backtransform_p_var X = .nan ∧
    m.transform_p_cov X = .nan ∧ m.backtransform_p_cov X = .nan ∧
    m.transform_y_var X = .nan ∧ m.backtransform_y_var X = .nan ∧
    m.transform_y_cov X = .nan ∧ m.backtransform_y_cov X = .nan := by
  refine ⟨?_, ?_, ?_, ?_, ?_, ?_, ?_, ?_, ?_, ?_, ?_, ?_, ?_, ?_, ?_, ?_⟩ <;>
    simp [GPModel.transform_x, GPModel.backtransform_x, GPModel.transform_p,
      GPModel.backtransform_p, GPModel.transform_z, GPModel.backtransform_z,
      GPModel.transform_y, GPModel.backtransform_y, GPModel.transform_p_var,
      GPModel.backtransform_p_var, GPModel.transform_p_cov, GPModel.backtransform_p_cov,
      GPModel.transform_y_var, GPModel.backtransform_y_var, GPModel.transform_y_cov,
      GPModel.backtransform_y_cov, GPModel.transform, GPModel.backtransform,
      GPModel.xmin, GPModel.xmax, GPModel.pmin, GPModel.pmax, hz, hy]

/-- Witness for C8 at a fresh model (no statistics set) and a concrete array. -/
theorem C8_missing_stats_transforms_return_nan_witness :
    ({ dim_x := 1, dim_p := 1, num_outputs := 1, binary_variables := [] } :
      GPModel).transform_z [[1, 2]] = .nan := by
  exact (C8_missing_stats_transforms_return_nan _ [[1, 2]] rfl rfl).2.2.2.2.1

/-- C9: after `set_kernels(kern_x, kern_p)` with both kernel classes
non-None, the `kern_p` property returns the stored design-variable kernel
class (the `kern_x` value) — as the source getter reads `self._kern_x` —
so when the two classes differ, reading `kern_p` does not return the value
that was set for it. -/
theorem C9_kern_p_returns_kern_x (m : GPModel) (kx kp : KernClass) :
    (m.set_kernels (some kx) (some kp)).kern_p = .ok (some kx) ∧
    (kx ≠ kp → (m.set_kernels (some kx) (some kp)).kern_p ≠ .ok (some kp)) := by
  have h1 : (m.set_kernels (some kx) (some kp)).kern_p = .ok (some kx) := rfl
  refine ⟨h1, fun hne h2 => hne ?_⟩
  rw [h1] at h2
  exact Option.some_injective _ (Except.ok.inj h2)

/-- Witness for C9 with two distinct kernel classes. -/
theorem C9_kern_p_returns_kern_x_witness :
    (({ dim_x := 1, dim_p := 1, num_outputs := 1, binary_variables := [] } :
        GPModel).set_kernels (some 1) (some 2)).kern_p = .ok (some 1) ∧
    (({ dim_x := 1, dim_p := 1, num_outputs := 1, binary_variables := [] } :
        GPModel).set_kernels (some 1) (some 2)).kern_p ≠ .ok (some 2) :=
  ⟨(C9_kern_p_returns_kern_x _ 1 2).1, (C9_kern_p_returns_kern_x _ 1 2).2 (by decide)⟩

/-- C10: the engine's `Sigma` is always either absent or a `dim_p × dim_p`
array: a fresh engine has no `Sigma`; the setter accepts only an ndarray
of shape `(dim_p, dim_p)` (and stores exactly it); and
`compute_param_covar` — the only operation writing `Sigma` — preserves the
invariant on every path. -/
theorem C10_Sigma_shape_invariant :
    (∀ gps pm bv, (GPMarginal.init gps pm bv).Sigma = none) ∧
    (∀ (m : GPMarginal) (v : PyVal) (m' : GPMarginal), m.Sigma_set v = some m' →
      ∃ M, v = .ndarray M ∧ isShape M m.param_mean.length m.param_mean.length = true ∧
        m'.Sigma = some M ∧ m'.param_mean = m.param_mean) ∧
    (∀ (m : GPMarginal) (X : Mat) (mnv : MeasNoise), SigmaInvariant m →
      SigmaInvariant ((compute_param_covar m X mnv).2)) := by
  refine ⟨fun gps pm bv => rfl, ?_, ?_⟩
  · intro m v m' h
    obtain ⟨M, hv, hs, hm'⟩ := Sigma_set_inv h
    exact ⟨M, hv, hs, by rw [hm']; rfl, by rw [hm']⟩
  · intro m X mnv hm
    cases hiA : cpcIA m X mnv with
    | error e => rw [cpc_err hiA]; exact hm
    | ok iA =>
      cases hinv : npLinalgInv iA with
      | none => rw [cpc_sing hiA hinv]; exact hm
      | some S =>
        cases hset : m.Sigma_set (.ndarray S) with
        | none => rw [cpc_assert hiA hinv hset]; exact hm
        | some m' =>
          rw [cpc_ok hiA hinv hset]
          obtain ⟨M, hv, hs, hm'⟩ := Sigma_set_inv hset
          have hSM : S = M := by injection hv
          subst hSM
          subst hm'
          exact Or.inr ⟨S, rfl, hs⟩

/-- Witness for C10: the invariant-preservation conjunct applied to a
concrete engine whose `Sigma` is absent. -/
theorem C10_Sigma_shape_invariant_witness :
    SigmaInvariant ((compute_param_covar
      (GPMarginal.init [[some ⟨fun _ => [0, 0]⟩]] [0] []) [[1]] (.scalar 1)).2) :=
  C10_Sigma_shape_invariant.2.2 _ _ _ (Or.inl rfl)

/-- C6: if `compute_param_covar` fails on any path (singular noise, null
oracle access, singular information matrix, rejected store), the engine
state — in particular a previously computed `Sigma` — is exactly as it was
before the call: the source's only mutation of `self` is the final
`self.Sigma = ...` on the success path. -/
theorem C6_error_leaves_state_unchanged (m : GPMarginal) (X : Mat) (mnv : MeasNoise)
    (e : CovarError) (st : GPMarginal)
    (h : compute_param_covar m X mnv = (.error e, st)) :
    st = m ∧ st.Sigma = m.Sigma := by
  have hst : st = m := by
    cases hiA : cpcIA m X mnv with
    | error e' => rw [cpc_err hiA] at h; exact (Prod.mk.injEq _ _ _ _ ▸ h).2.symm
    | ok iA =>
      cases hinv : npLinalgInv iA with
      | none => rw [cpc_sing hiA hinv] at h; exact (Prod.mk.injEq _ _ _ _ ▸ h).2.symm
      | some S =>
        cases hset : m.Sigma_set (.ndarray S) with
        | none => rw [cpc_assert hiA hinv hset] at h; exact (Prod.mk.injEq _ _ _ _ ▸ h).2.symm
        | some m' =>
          rw [cpc_ok hiA hinv hset] at h
          exact absurd (Prod.mk.injEq _ _ _ _ ▸ h).1 (by simp)
  exact ⟨hst, by rw [hst]⟩

/-- Witness for C6: a failing call (zero oracle gradient, hence singular
information matrix) on an engine with a previously stored `Sigma`; the
stored value survives unchanged. -/
theorem C6_error_leaves_state_unchanged_witness :
    (compute_param_covar mC6 [[1]] (.scalar 1)).2.Sigma = some [[5]] := by
  have h1 : cpcIA mC6 [[1]] (.scalar 1) = .ok [[0]] := by
    norm_num [cpcIA, mC6, binary_dimensions, allPatterns, colSelect,
      buildImeasvar, diagMat, computeIA, get_d_mu_d_p, dmuStep, d_mu_d_p, get_Z, selectRows,
      scatterRows, matTmul, matAdd, scalarMul, sumListQ, zerosMat, entry,
      List.foldlM, exceptOkBind, exceptErrBind, List.range_succ, MeasNoise.isVecCase,
      List.findIdx_cons, List.findIdx_nil, List.isEmpty_nil, cond_true, cond_false]
  have h : compute_param_covar mC6 [[1]] (.scalar 1) = (.error .singularInformation, mC6) :=
    cpc_sing h1 (npLinalgInv_det_zero (by rw [toFinMat_singleton_det]))
  have h' : compute_param_covar mC6 [[1]] (.scalar 1) =
      (.error .singularInformation, (compute_param_covar mC6 [[1]] (.scalar 1)).2) := by
    rw [h]
  have h2 := C6_error_leaves_state_unchanged mC6 [[1]] (.scalar 1) .singularInformation
    (compute_param_covar mC6 [[1]] (.scalar 1)).2 h'
  rw [h2.2]; rfl

/-- C5: a singular accumulated information matrix makes
`compute_param_covar` fail with the singular-information error
(`np.linalg.inv` raising `LinAlgError`), leaving `Sigma` untouched rather
than storing a degenerate covariance. -/
theorem C5_singular_information_error (m : GPMarginal) (X : Mat) (mnv : MeasNoise) (iA : Mat)
    (h1 : cpcIA m X mnv = .ok iA) (h2 : (toFinMat iA).det = 0) :
    compute_param_covar m X mnv = (.error .singularInformation, m) ∧
    (compute_param_covar m X mnv).2.Sigma = m.Sigma := by
  have h := cpc_sing h1 (npLinalgInv_det_zero h2)
  exact ⟨h, by rw [h]⟩

/-- Witness for C5: with the zero parameter gradient, `iA = [[0]]` is
singular and the call fails without storing anything. -/
theorem C5_singular_information_error_witness :
    compute_param_covar mC5 [[1]] (.scalar 1) = (.error .singularInformation, mC5) ∧
    (compute_param_covar mC5 [[1]] (.scalar 1)).2.Sigma = mC5.Sigma := by
  have h1 : cpcIA mC5 [[1]] (.scalar 1) = .ok [[0]] := by
    norm_num [cpcIA, mC5, GPMarginal.init, binary_dimensions, allPatterns, colSelect,
      buildImeasvar, diagMat, computeIA, get_d_mu_d_p, dmuStep, d_mu_d_p, get_Z, selectRows,
      scatterRows, matTmul, matAdd, scalarMul, sumListQ, zerosMat, entry,
      List.foldlM, exceptOkBind, exceptErrBind, List.range_succ, MeasNoise.isVecCase,
      List.findIdx_cons, List.findIdx_nil, List.isEmpty_nil, cond_true, cond_false]
  exact C5_singular_information_error _ _ _ [[0]] h1 (by rw [toFinMat_singleton_det])

/-! ### C2: null-oracle handling inside get_d_mu_d_p -/

theorem beqQ01 : (((0 : ℚ)) == 1) = false := by norm_num

theorem beqQ10 : (((1 : ℚ)) == 0) = false := by norm_num

theorem beqQ00 : (((0 : ℚ)) == 0) = true := by norm_num

theorem beqQ11 : (((1 : ℚ)) == 1) = true := by norm_num

theorem foldlM_dmuStep_ok (pm : Vec) (gps_e : List (Option Oracle)) (J : List ℕ) (X : Mat) :
    ∀ (R : List ℕ) (dmu : Mat),
      (∀ r ∈ R, J.contains r = true → (gps_e.getD r none).isSome) →
      ∃ out, R.foldlM (dmuStep pm gps_e J X) dmu = .ok out := by
  intro R
  induction R with
  | nil => intro dmu _; exact ⟨dmu, rfl⟩
  | cons r0 R' ih =>
    intro dmu h
    rw [List.foldlM_cons]
    by_cases hc : J.contains r0 = true
    · cases hg : gps_e.getD r0 none with
      | none =>
        have hsome := h r0 (List.mem_cons_self _ _) hc
        rw [hg] at hsome; exact absurd hsome (by simp)
      | some gp =>
        have hstep : dmuStep pm gps_e J X dmu r0 =
            .ok (scatterRows r0 J dmu (d_mu_d_p pm gp (selectRows J r0 X))) := by
          unfold dmuStep; rw [if_pos hc, hg]
        rw [hstep, exceptOkBind]
        exact ih _ (fun r hr hcr => h r (List.mem_cons_of_mem _ hr) hcr)
    · have hstep : dmuStep pm gps_e J X dmu r0 = .ok dmu := by
        unfold dmuStep; rw [if_neg hc]
      rw [hstep, exceptOkBind]
      exact ih _ (fun r hr hcr => h r (List.mem_cons_of_mem _ hr) hcr)

theorem foldlM_dmuStep_err (pm : Vec) (gps_e : List (Option Oracle)) (J : List ℕ) (X : Mat) :
    ∀ (R : List ℕ) (dmu : Mat),
      (∃ r ∈ R, J.contains r = true ∧ gps_e.getD r none = none) →
      R.foldlM (dmuStep pm gps_e J X) dmu = .error .nullOracleAccess := by
  intro R
  induction R with
  | nil => rintro dmu ⟨r, hr, -⟩; exact absurd hr (List.not_mem_nil r)
  | cons r0 R' ih =>
    rintro dmu ⟨r, hr, hc, hg⟩
    rw [List.foldlM_cons]
    rcases List.mem_cons.mp hr with rfl | hr'
    · have hstep : dmuStep pm gps_e J X dmu r = .error .nullOracleAccess := by
        unfold dmuStep; rw [if_pos hc, hg]
      rw [hstep, exceptErrBind]
    · by_cases hc0 : J.contains r0 = true
      · cases hg0 : gps_e.getD r0 none with
        | none =>
          have hstep : dmuStep pm gps_e J X dmu r0 = .error .nullOracleAccess := by
            unfold dmuStep; rw [if_pos hc0, hg0]
          rw [hstep, exceptErrBind]
        | some gp =>
          have hstep : dmuStep pm gps_e J X dmu r0 =
              .ok (scatterRows r0 J dmu (d_mu_d_p pm gp (selectRows J r0 X))) := by
            unfold dmuStep; rw [if_pos hc0, hg0]
          rw [hstep, exceptOkBind]
          exact ih _ ⟨r, hr', hc, hg⟩
      · have hstep : dmuStep pm gps_e J X dmu r0 = .ok dmu := by
          unfold dmuStep; rw [if_neg hc0]
        rw [hstep, exceptOkBind]
        exact ih _ ⟨r, hr', hc, hg⟩

/-- C2 (amended): inside `compute_param_covar`'s sensitivity accumulation,
the engine branches on whether a binary group contains any query row
(`np.any(J==r)`), not on oracle absence.  A group with no query rows is
skipped (and so contributes nothing) even if its oracle is null; but a
query row whose group has a null oracle makes the engine query that null
oracle and crash: `get_d_mu_d_p` fails with `nullOracleAccess` exactly
when some group in `R` both contains a query row and has a null oracle. -/
theorem C2_null_oracle_branch (pm : Vec) (gps_e : List (Option Oracle))
    (R J : List ℕ) (X : Mat) (D : ℕ) :
    get_d_mu_d_p pm gps_e R J X D = .error .nullOracleAccess ↔
      ∃ r ∈ R, J.contains r = true ∧ gps_e.getD r none = none := by
  constructor
  · intro h
    by_contra hno
    push_neg at hno
    obtain ⟨out, hout⟩ := foldlM_dmuStep_ok pm gps_e J X R
      (X.map fun _ => List.replicate D 0)
      (fun r hr hc => Option.ne_none_iff_isSome.mp (hno r hr hc))
    unfold get_d_mu_d_p at h
    rw [hout] at h
    exact absurd h (by simp)
  · intro h
    exact foldlM_dmuStep_err pm gps_e J X R _ h

/-- Counterexample to C2 as stated: the query row `[1, 5]` lies in binary
group 1, whose oracle is null.  The engine does not skip the row — it
queries the null oracle and the call fails with `nullOracleAccess`
(Python: `AttributeError` on `None.predictive_gradients`), contributing
no covariance at all instead of "contributing nothing to iA". -/
theorem C2_null_oracle_queried_counterexample :
    compute_param_covar mC2 [[1, 5]] (.scalar 1) = (.error .nullOracleAccess, mC2) := by
  have h1 : cpcIA mC2 [[1, 5]] (.scalar 1) = .error .nullOracleAccess := by
    norm_num [cpcIA, mC2, gpsC2, gp_surrogate_gps, GPMarginal.init, binary_dimensions,
      allPatterns, colSelect, buildImeasvar, diagMat, computeIA, get_d_mu_d_p, dmuStep,
      d_mu_d_p, get_Z, selectRows, scatterRows, matTmul, matAdd, scalarMul, sumListQ,
      zerosMat, entry, List.foldlM, exceptOkBind, exceptErrBind, List.range_succ,
      MeasNoise.isVecCase, List.findIdx_cons, List.findIdx_nil, List.isEmpty_nil,
      cond_true, cond_false, beqQ01, beqQ10, beqQ00, beqQ11]
  exact cpc_err h1

/-! ### C4: independent noise adds no cross-output terms -/

theorem getD_range_map {α : Type} (f : ℕ → α) (n i : ℕ) (d : α) (h : i < n) :
    ((List.range n).map f).getD i d = f i := by
  rw [List.getD_eq_getElem?_getD, List.getElem?_map, List.getElem?_range h]
  rfl

theorem getD_len_le {α : Type} (l : List α) (i : ℕ) (d : α) (h : l.length ≤ i) :
    l.getD i d = d := by
  rw [List.getD_eq_getElem?_getD, List.getElem?_eq_none h]
  rfl

theorem getD_map_inv (v : Vec) (e : ℕ) :
    (v.map (fun x => 1 / x)).getD e 0 = 1 / v.getD e 0 := by
  rcases lt_or_le e v.length with h | h
  · rw [List.getD_eq_getElem?_getD, List.getElem?_map, List.getElem?_eq_getElem h,
      List.getD_eq_getElem?_getD, List.getElem?_eq_getElem h]
    rfl
  · rw [getD_len_le _ _ _ (by simpa using h), getD_len_le _ _ _ h]
    norm_num

theorem entry_diagMat (w : Vec) (i j : ℕ) :
    entry (diagMat w) i j = if i = j then w.getD i 0 else 0 := by
  unfold entry diagMat
  rcases lt_or_le i w.length with hi | hi
  · rw [getD_range_map _ _ _ _ hi]
    rcases lt_or_le j w.length with hj | hj
    · rw [getD_range_map _ _ _ _ hj]
      by_cases hij : i = j
      · simp [hij]
      · simp [hij]
    · have hl : ((List.range w.length).map
          (fun k => if i == k then w.getD i 0 else 0)).length ≤ j := by
        simpa using hj
      rw [getD_len_le _ _ _ hl]
      by_cases hij : i = j
      · rw [if_pos hij, hij, getD_len_le w j 0 hj]
      · rw [if_neg hij]
  · have hl : ((List.range w.length).map (fun k =>
        (List.range w.length).map (fun l' => if k == l' then w.getD k 0 else 0))).length ≤ i := by
      simpa using hi
    rw [getD_len_le _ _ _ hl]
    by_cases hij : i = j
    · rw [if_pos hij, getD_len_le w i 0 hi]
      rfl
    · rw [if_neg hij]
      rfl

theorem entry_diagMat_diag (w : Vec) (e : ℕ) : entry (diagMat w) e e = w.getD e 0 := by
  rw [entry_diagMat, if_pos rfl]

theorem foldlM_ok_of_steps {α β ε : Type} (f : β → α → Except ε β) (g : β → α → β) :
    ∀ (l : List α), (∀ b a, a ∈ l → f b a = .ok (g b a)) →
      ∀ init, l.foldlM f init = .ok (l.foldl g init) := by
  intro l
  induction l with
  | nil => intro _ init; rfl
  | cons a l ih =>
    intro h init
    rw [List.foldlM_cons, h init a (List.mem_cons_self _ _), exceptOkBind, List.foldl_cons]
    exact ih (fun b a' ha' => h b a' (List.mem_cons_of_mem _ ha')) (g init a)

/-- C4: with a 1-D per-output noise vector, the accumulated information
matrix contains no cross-output term whatsoever: it is exactly the
spec's per-output-only accumulation `Σ_e (1/var_e)·dmu_eᵀ·dmu_e`, whatever
the outputs' sensitivities are (in particular when they are correlated). -/
theorem C4_independent_noise_no_cross_terms (m : GPMarginal) (Xdata : Mat) (v : Vec)
    (dmus : List Mat) (hlen : dmus.length = m.gps.length)
    (hdmu : ∀ e < m.gps.length,
      get_d_mu_d_p m.param_mean (m.gps.getD e [])
        (binary_dimensions Xdata m.bin_var).1 (binary_dimensions Xdata m.bin_var).2.2
        (colSelect Xdata (binary_dimensions Xdata m.bin_var).2.1) m.param_mean.length =
        .ok (dmus.getD e [])) :
    cpcIA m Xdata (.vec v) = .ok (perOutputOnlyIA v dmus m.param_mean.length) := by
  have hred : cpcIA m Xdata (.vec v) =
      computeIA m.param_mean m.gps (binary_dimensions Xdata m.bin_var).1
        (binary_dimensions Xdata m.bin_var).2.2
        (colSelect Xdata (binary_dimensions Xdata m.bin_var).2.1)
        (diagMat (v.map (fun x => 1 / x))) true m.gps.length m.param_mean.length := rfl
  rw [hred]
  unfold computeIA
  refine Eq.trans (foldlM_ok_of_steps _
    (fun iA e1 => matAdd iA (scalarMul (entry (diagMat (v.map fun x => 1 / x)) e1 e1)
      (matTmul (dmus.getD e1 []) (dmus.getD e1 []) m.param_mean.length)))
    (List.range m.gps.length) ?_
    (zerosMat m.param_mean.length m.param_mean.length)) ?_
  · intro b e he
    rw [hdmu e (List.mem_range.mp he)]
    rfl
  · congr 1
    unfold perOutputOnlyIA
    rw [hlen]
    refine List.foldl_ext _ _ _ (fun acc e _ => ?_)
    rw [entry_diagMat_diag, getD_map_inv]

/-- Witness for C4: two outputs with correlated sensitivities, unit noise
vector; the engine's `iA` equals the per-output-only accumulation. -/
theorem C4_independent_noise_no_cross_terms_witness :
    cpcIA mC4 [[1]] (.vec [1, 1]) = .ok (perOutputOnlyIA [1, 1] dmusC4 1) := by
  refine C4_independent_noise_no_cross_terms mC4 [[1]] [1, 1] dmusC4 rfl ?_
  intro e he
  have he2 : e < 2 := by simpa [mC4, GPMarginal.init] using he
  interval_cases e <;>
    norm_num [mC4, GPMarginal.init, get_d_mu_d_p, dmuStep, dmusC4, binary_dimensions,
      allPatterns, colSelect, selectRows, scatterRows, d_mu_d_p, get_Z, gC4a, gC4b,
      List.foldlM, exceptOkBind, exceptErrBind, List.findIdx_cons, List.findIdx_nil,
      List.isEmpty_nil, cond_true, cond_false]

/-! ### C1: scalar-noise end-to-end covariance -/

theorem rowSelect_id (row : Vec) :
    (List.range row.length).map (fun i => row.getD i 0) = row := by
  apply List.ext_getElem
  · simp
  · intro k h1 h2
    simp only [List.getElem_map, List.getElem_range]
    rw [List.getD_eq_getElem?_getD, List.getElem?_eq_getElem h2]
    rfl

theorem binary_dimensions_nil_J (X : Mat) :
    (binary_dimensions X []).2.2 = X.map (fun _ => 0) :=
  List.map_congr_left (fun _ _ => rfl)

theorem binary_dimensions_nil_I (X : Mat) (d : ℕ) (hd : (X.headD []).length = d)
    (hrect : ∀ row ∈ X, row.length = d) :
    colSelect X (binary_dimensions X []).2.1 = X := by
  have hIeq : (binary_dimensions X []).2.1 = List.range d := by
    show (List.range (X.headD []).length).filter (fun i => !(([] : List ℕ).contains i)) =
      List.range d
    rw [hd]
    exact List.filter_eq_self.mpr (fun a _ => rfl)
  rw [hIeq]
  unfold colSelect
  calc X.map (fun row => (List.range d).map (fun i => row.getD i 0))
      = X.map id := List.map_congr_left (fun row hrow => by
        rw [← hrect row hrow]; exact rowSelect_id row)
    _ = X := List.map_id X

theorem selectRows_map_const (X : Mat) (r : ℕ) :
    selectRows (X.map fun _ => r) r X = X := by
  induction X with
  | nil => rfl
  | cons x xs ih =>
    have hcons : selectRows ((x :: xs).map fun _ => r) r (x :: xs) =
        x :: selectRows (xs.map fun _ => r) r xs := by
      simp [selectRows]
    rw [hcons, ih]

theorem scatterRows_map_const (r : ℕ) :
    ∀ (X dmu new : Mat), dmu.length = X.length → new.length = X.length →
      scatterRows r (X.map fun _ => r) dmu new = new := by
  intro X
  induction X with
  | nil =>
    intro dmu new h1 h2
    rw [List.length_nil, List.length_eq_zero] at h1 h2
    subst h1; subst h2
    rfl
  | cons x xs ih =>
    intro dmu new h1 h2
    cases dmu with
    | nil => exact absurd h1 (by simp)
    | cons dh dt =>
      cases new with
      | nil => exact absurd h2 (by simp)
      | cons nh nt =>
        simp only [List.map_cons, scatterRows, beq_self_eq_true', if_true, if_pos]
        rw [ih dt nt (by simpa using h1) (by simpa using h2)]

theorem d_mu_d_p_const (pm : Vec) (gp : Oracle) (X : Mat) (d : ℕ) (b : ℚ)
    (hd : (X.headD []).length = d)
    (hgrad : ∀ row ∈ X, (gp.predictive_gradients (row ++ pm)).drop d = [b]) :
    d_mu_d_p pm gp X = X.map (fun _ => [b]) := by
  unfold d_mu_d_p get_Z
  rw [List.map_map]
  refine List.map_congr_left (fun row hrow => ?_)
  show (gp.predictive_gradients (row ++ pm)).drop (X.headD []).length = [b]
  rw [hd]
  exact hgrad row hrow

theorem sumListQ_map_const {α : Type} (l : List α) (c : ℚ) :
    sumListQ (l.map fun _ => c) = l.length * c := by
  induction l with
  | nil => simp [sumListQ]
  | cons x xs ih =>
    unfold sumListQ at *
    simp only [List.map_cons, List.foldr_cons, List.length_cons]
    rw [ih]
    push_cast
    ring

theorem matTmul_const_one (X : Mat) (b : ℚ) :
    matTmul (X.map fun _ => [b]) (X.map fun _ => [b]) 1 = [[(X.length : ℚ) * (b * b)]] := by
  unfold matTmul
  rw [show List.range 1 = [0] from rfl]
  simp only [List.map_cons, List.map_nil]
  rw [List.zip_map', List.map_map]
  rw [show ((fun ab : Vec × Vec => ab.1.getD 0 0 * ab.2.getD 0 0) ∘
    fun _ : Vec => (([b] : Vec), ([b] : Vec))) = fun _ : Vec => b * b from rfl]
  rw [sumListQ_map_const]

theorem get_d_mu_d_p_single (pm : Vec) (gp : Oracle) (X : Mat) (D : ℕ) (new : Mat)
    (hX : X ≠ []) (hnew : d_mu_d_p pm gp X = new) (hlen : new.length = X.length) :
    get_d_mu_d_p pm [some gp] [0] (X.map fun _ => 0) X D = .ok new := by
  unfold get_d_mu_d_p
  rw [List.foldlM_cons]
  have hcon : (X.map fun _ => 0).contains 0 = true := by
    cases X with
    | nil => exact absurd rfl hX
    | cons x xs => simp
  have hstep : dmuStep pm [some gp] (X.map fun _ => 0) X
      (X.map fun _ => List.replicate D 0) 0 = .ok new := by
    unfold dmuStep
    rw [if_pos hcon]
    show Except.ok (scatterRows 0 (X.map fun _ => 0) (X.map fun _ => List.replicate D 0)
      (d_mu_d_p pm gp (selectRows (X.map fun _ => 0) 0 X))) = .ok new
    rw [selectRows_map_const, hnew,
      scatterRows_map_const 0 X _ _ (by simp) (by rw [hlen])]
  rw [hstep, exceptOkBind, List.foldlM_nil]
  rfl

/-- C1: one output, one parameter, oracle posterior-mean gradient constant
`b` at every query row, scalar measurement noise variance `s`: the engine
stores the closed-form parameter covariance `Σ = s / (n·b²)` for `n` query
rows (exactly, in the rational-arithmetic model). -/
theorem C1_end_to_end_scalar_covar (gp : Oracle) (p0 b s : ℚ) (Xdata : Mat) (d : ℕ)
    (hX : Xdata ≠ [])
    (hrect : ∀ row ∈ Xdata, row.length = d)
    (hgrad : ∀ row ∈ Xdata, (gp.predictive_gradients (row ++ [p0])).drop d = [b])
    (hb : b ≠ 0) (hs : s ≠ 0) :
    compute_param_covar (GPMarginal.init [[some gp]] [p0] []) Xdata (.scalar s) =
      (.ok (), { gps := [[some gp]], param_mean := [p0], bin_var := [],
                 Sigma_stored := some [[s / ((Xdata.length : ℚ) * b ^ 2)]] }) := by
  have hd' : (Xdata.headD []).length = d := by
    cases Xdata with
    | nil => exact absurd rfl hX
    | cons x xs => exact hrect x (List.mem_cons_self _ _)
  have hdmu : d_mu_d_p [p0] gp Xdata = Xdata.map (fun _ => [b]) :=
    d_mu_d_p_const [p0] gp Xdata d b hd' hgrad
  have hget : get_d_mu_d_p [p0] [some gp] [0] (Xdata.map fun _ => 0) Xdata 1 =
      .ok (Xdata.map fun _ => [b]) :=
    get_d_mu_d_p_single [p0] gp Xdata 1 _ hX hdmu (by simp)
  have hget2 : get_d_mu_d_p [p0] (([[some gp]] : List (List (Option Oracle))).getD 0 [])
      [0] (Xdata.map fun _ => 0) Xdata 1 = .ok (Xdata.map fun _ => [b]) := hget
  have hcpc : cpcIA (GPMarginal.init [[some gp]] [p0] []) Xdata (.scalar s) =
      .ok [[1 / s * ((Xdata.length : ℚ) * (b * b))]] := by
    have h0 : cpcIA (GPMarginal.init [[some gp]] [p0] []) Xdata (.scalar s) =
        computeIA [p0] [[some gp]] [0] (binary_dimensions Xdata []).2.2
          (colSelect Xdata (binary_dimensions Xdata []).2.1) [[1 / s]] true 1 1 := rfl
    rw [h0, binary_dimensions_nil_J, binary_dimensions_nil_I Xdata d hd' hrect]
    unfold computeIA
    rw [show List.range 1 = [0] from rfl]
    refine Eq.trans (foldlM_ok_of_steps _
      (fun iA e1 => matAdd iA (scalarMul (entry [[1 / s]] e1 e1)
        (matTmul (Xdata.map fun _ => [b]) (Xdata.map fun _ => [b]) 1))) [0] ?_
      (zerosMat 1 1)) ?_
    · intro iA e he
      have he0 : e = 0 := by simpa using he
      subst he0
      rw [hget2, exceptOkBind]
      rfl
    · rw [List.foldl_cons, List.foldl_nil, matTmul_const_one]
      simp [entry, scalarMul, matAdd, zerosMat]
  have hn : ((Xdata.length : ℚ)) ≠ 0 :=
    Nat.cast_ne_zero.mpr (fun h0 => hX (List.length_eq_zero.mp h0))
  have hc : (1 / s * ((Xdata.length : ℚ) * (b * b))) ≠ 0 :=
    mul_ne_zero (one_div_ne_zero hs) (mul_ne_zero hn (mul_ne_zero hb hb))
  have hinv := npLinalgInv_singleton hc
  have hset : (GPMarginal.init [[some gp]] [p0] []).Sigma_set
      (.ndarray [[(1 / s * ((Xdata.length : ℚ) * (b * b)))⁻¹]]) =
      some { gps := [[some gp]], param_mean := [p0], bin_var := [],
             Sigma_stored := some [[(1 / s * ((Xdata.length : ℚ) * (b * b)))⁻¹]] } := rfl
  rw [cpc_ok hcpc hinv hset]
  have harith : (1 / s * ((Xdata.length : ℚ) * (b * b)))⁻¹ =
      s / ((Xdata.length : ℚ) * b ^ 2) := by
    rw [mul_inv, one_div, inv_inv, div_eq_mul_inv, pow_two]
  rw [harith]

/-- Witness for C1: three query rows, `b = 2`, `s = 5`; the stored
covariance is `5 / (3·2²)`. -/
theorem C1_end_to_end_scalar_covar_witness :
    compute_param_covar (GPMarginal.init [[some gpC1]] [7] []) [[3], [4], [9]] (.scalar 5) =
      (.ok (), { gps := [[some gpC1]], param_mean := [7], bin_var := [],
                 Sigma_stored := some [[5 / ((([[3], [4], [9]] : Mat).length : ℚ) * 2 ^ 2)]] }) :=
  C1_end_to_end_scalar_covar gpC1 7 2 5 [[3], [4], [9]] 1 (by simp)
    (by intro row h
        simp only [List.mem_cons, List.not_mem_nil, or_false] at h
        rcases h with rfl | rfl | rfl <;> rfl)
    (by intro row h
        simp only [List.mem_cons, List.not_mem_nil, or_false] at h
        rcases h with rfl | rfl | rfl <;> rfl)
    (by norm_num) (by norm_num)

/-! ### C7: transform round trips -/

theorem zipmap_cancel {α γ : Type} (f g : α → γ → α) :
    ∀ (W : List α) (s : List γ), (∀ v ∈ W, ∀ c ∈ s, f (g v c) c = v) →
      W.length ≤ s.length →
      (((W.zip s).map (fun t => g t.1 t.2)).zip s).map (fun t => f t.1 t.2) = W := by
  intro W
  induction W with
  | nil => intro s _ _; rfl
  | cons w ws ih =>
    intro s h hlen
    cases s with
    | nil => simp at hlen
    | cons c cs =>
      simp only [List.zip_cons_cons, List.map_cons]
      rw [h w (List.mem_cons_self _ _) c (List.mem_cons_self _ _),
        ih cs (fun v hv c' hc' => h v (List.mem_cons_of_mem _ hv) c'
          (List.mem_cons_of_mem _ hc')) (by simpa using hlen)]

theorem zip_drop_comm {α β : Type} (a : List α) (b : List β) (n : ℕ) :
    (a.drop n).zip (b.drop n) = (a.zip b).drop n := by
  simp [List.zip, List.drop_zipWith]

theorem zipmap_cancel_mem {α γ δ : Type} (f g : α → γ → α) (h0 : δ → γ → α)
    (row0 : List δ) (s : List γ)
    (h : ∀ v ∈ (row0.zip s).map (fun t => h0 t.1 t.2), ∀ c ∈ s, f (g v c) c = v) :
    ((((((row0.zip s).map (fun t => h0 t.1 t.2)).zip s).map (fun t => g t.1 t.2)).zip s).map
      (fun t => f t.1 t.2)) = (row0.zip s).map (fun t => h0 t.1 t.2) := by
  apply zipmap_cancel f g _ s h
  rw [List.length_map, List.length_zip]
  exact min_le_right _ _

theorem box_roundtrip (mn mx : Vec) (hnz : ∀ c ∈ mn.zip mx, c.2 - c.1 ≠ 0) (Z : Mat) :
    box_trans (box_trans (box_trans Z mn mx false) mn mx true) mn mx false =
      box_trans Z mn mx false := by
  unfold box_trans
  rw [List.map_map]
  refine (List.map_congr_left fun row' hrow' => ?_).trans (List.map_id _)
  obtain ⟨row, -, rfl⟩ := List.mem_map.mp hrow'
  exact zipmap_cancel_mem
    (fun v (c : ℚ × ℚ) =>
      if false = true then c.1 + v * (c.2 - c.1) else (v - c.1) / (c.2 - c.1))
    (fun v (c : ℚ × ℚ) =>
      if true = true then c.1 + v * (c.2 - c.1) else (v - c.1) / (c.2 - c.1))
    (fun v (c : ℚ × ℚ) =>
      if false = true then c.1 + v * (c.2 - c.1) else (v - c.1) / (c.2 - c.1))
    row (mn.zip mx)
    (fun v _ c hc => by
      show (c.1 + v * (c.2 - c.1) - c.1) / (c.2 - c.1) = v
      rw [add_sub_cancel_left, mul_div_cancel_right₀ v (hnz c hc)])

theorem mean_roundtrip (mean std : Vec) (hnz : ∀ c ∈ mean.zip std, c.2 ≠ 0) (Y : Mat) :
    mean_trans (mean_trans (mean_trans Y mean std false) mean std true) mean std false =
      mean_trans Y mean std false := by
  unfold mean_trans
  rw [List.map_map]
  refine (List.map_congr_left fun row' hrow' => ?_).trans (List.map_id _)
  obtain ⟨row, -, rfl⟩ := List.mem_map.mp hrow'
  exact zipmap_cancel_mem
    (fun v (c : ℚ × ℚ) => if false = true then c.1 + v * c.2 else (v - c.1) / c.2)
    (fun v (c : ℚ × ℚ) => if true = true then c.1 + v * c.2 else (v - c.1) / c.2)
    (fun v (c : ℚ × ℚ) => if false = true then c.1 + v * c.2 else (v - c.1) / c.2)
    row (mean.zip std)
    (fun v _ c hc => by
      show (c.1 + v * c.2 - c.1) / c.2 = v
      rw [add_sub_cancel_left, mul_div_cancel_right₀ v (hnz c hc)])

theorem box_var_roundtrip (mn mx : Vec) (hnz : ∀ c ∈ mn.zip mx, c.2 - c.1 ≠ 0) (C : Mat) :
    box_var_trans (box_var_trans (box_var_trans C mn mx false) mn mx true) mn mx false =
      box_var_trans C mn mx false := by
  unfold box_var_trans
  rw [List.map_map]
  refine (List.map_congr_left fun row' hrow' => ?_).trans (List.map_id _)
  obtain ⟨row, -, rfl⟩ := List.mem_map.mp hrow'
  exact zipmap_cancel_mem
    (fun v (c : ℚ × ℚ) =>
      if false = true then v * (c.2 - c.1) ^ 2 else v / (c.2 - c.1) ^ 2)
    (fun v (c : ℚ × ℚ) =>
      if true = true then v * (c.2 - c.1) ^ 2 else v / (c.2 - c.1) ^ 2)
    (fun v (c : ℚ × ℚ) =>
      if false = true then v * (c.2 - c.1) ^ 2 else v / (c.2 - c.1) ^ 2)
    row (mn.zip mx)
    (fun v _ c hc => by
      show v * (c.2 - c.1) ^ 2 / (c.2 - c.1) ^ 2 = v
      rw [mul_div_cancel_right₀ v (pow_ne_zero 2 (hnz c hc))])

theorem mean_var_roundtrip (mean std : Vec) (hnz : ∀ c ∈ mean.zip std, c.2 ≠ 0) (C : Mat) :
    mean_var_trans (mean_var_trans (mean_var_trans C mean std false) mean std true)
      mean std false = mean_var_trans C mean std false := by
  unfold mean_var_trans
  rw [List.map_map]
  refine (List.map_congr_left fun row' hrow' => ?_).trans (List.map_id _)
  obtain ⟨row, -, rfl⟩ := List.mem_map.mp hrow'
  exact zipmap_cancel_mem
    (fun v (c : ℚ × ℚ) => if false = true then v * c.2 ^ 2 else v / c.2 ^ 2)
    (fun v (c : ℚ × ℚ) => if true = true then v * c.2 ^ 2 else v / c.2 ^ 2)
    (fun v (c : ℚ × ℚ) => if false = true then v * c.2 ^ 2 else v / c.2 ^ 2)
    row (mean.zip std)
    (fun v _ c hc => by
      show v * c.2 ^ 2 / c.2 ^ 2 = v
      rw [mul_div_cancel_right₀ v (pow_ne_zero 2 (hnz c hc))])

theorem box_cov_roundtrip (mn mx : Vec) (hnz : ∀ c ∈ mn.zip mx, c.2 - c.1 ≠ 0) (C : Mat) :
    box_cov_trans (box_cov_trans (box_cov_trans C mn mx false) mn mx true) mn mx false =
      box_cov_trans C mn mx false := by
  unfold box_cov_trans
  have hmv : ∀ q ∈ (mn.zip mx).map (fun p => p.2 - p.1), q ≠ 0 := by
    intro q hq
    obtain ⟨c, hc, rfl⟩ := List.mem_map.mp hq
    exact hnz c hc
  exact zipmap_cancel_mem
    (fun (v : Vec) (c : ℚ) => (v.zip ((mn.zip mx).map fun p => p.2 - p.1)).map
      (fun vmj => if false = true then vmj.1 * (c * vmj.2) else vmj.1 / (c * vmj.2)))
    (fun (v : Vec) (c : ℚ) => (v.zip ((mn.zip mx).map fun p => p.2 - p.1)).map
      (fun vmj => if true = true then vmj.1 * (c * vmj.2) else vmj.1 / (c * vmj.2)))
    (fun (v : Vec) (c : ℚ) => (v.zip ((mn.zip mx).map fun p => p.2 - p.1)).map
      (fun vmj => if false = true then vmj.1 * (c * vmj.2) else vmj.1 / (c * vmj.2)))
    C ((mn.zip mx).map fun p => p.2 - p.1)
    (fun v hv c hc => by
      obtain ⟨rm, -, rfl⟩ := List.mem_map.mp hv
      exact zipmap_cancel_mem
        (fun x (t : ℚ) => if false = true then x * (c * t) else x / (c * t))
        (fun x (t : ℚ) => if true = true then x * (c * t) else x / (c * t))
        (fun x (t : ℚ) => if false = true then x * (rm.2 * t) else x / (rm.2 * t))
        rm.1 ((mn.zip mx).map fun p => p.2 - p.1)
        (fun x _ t ht => by
          show x * (c * t) / (c * t) = x
          rw [mul_div_cancel_right₀ x (mul_ne_zero (hmv c hc) (hmv t ht))]))

theorem mean_cov_roundtrip (mean std : Vec) (hnz : ∀ sd ∈ std, sd ≠ 0) (C : Mat) :
    mean_cov_trans (mean_cov_trans (mean_cov_trans C mean std false) mean std true)
      mean std false = mean_cov_trans C mean std false := by
  unfold mean_cov_trans
  exact zipmap_cancel_mem
    (fun (v : Vec) (c : ℚ) => (v.zip std).map
      (fun t => if false = true then t.1 * (c * t.2) else t.1 / (c * t.2)))
    (fun (v : Vec) (c : ℚ) => (v.zip std).map
      (fun t => if true = true then t.1 * (c * t.2) else t.1 / (c * t.2)))
    (fun (v : Vec) (c : ℚ) => (v.zip std).map
      (fun t => if false = true then t.1 * (c * t.2) else t.1 / (c * t.2)))
    C std
    (fun v hv c hc => by
      obtain ⟨rm, -, rfl⟩ := List.mem_map.mp hv
      exact zipmap_cancel_mem
        (fun x (t : ℚ) => if false = true then x * (c * t) else x / (c * t))
        (fun x (t : ℚ) => if true = true then x * (c * t) else x / (c * t))
        (fun x (t : ℚ) => if false = true then x * (rm.2 * t) else x / (rm.2 * t))
        rm.1 std
        (fun x _ t ht => by
          show x * (c * t) / (c * t) = x
          rw [mul_div_cancel_right₀ x (mul_ne_zero (hnz c hc) (hnz t ht))]))

/-- C7: with the normalisation statistics set and nondegenerate, the round
trip `trans(back(trans(·)))` reproduces `trans(·)` for the z- and
y-transforms and for the variance and covariance transforms (exactly, in
the rational-arithmetic model). -/
theorem C7_transform_roundtrips (m : GPModel) (mn mx ym ys : Vec)
    (hz1 : m.zmin = some mn) (hz2 : m.zmax = some mx)
    (hy1 : m.ymean = some ym) (hy2 : m.ystd = some ys)
    (hnz : ∀ c ∈ mn.zip mx, c.2 - c.1 ≠ 0)
    (hys : ∀ sd ∈ ys, sd ≠ 0) :
    (∀ Z, ∃ T B, m.transform_z Z = .val T ∧ m.backtransform_z T = .val B ∧
      m.transform_z B = .val T) ∧
    (∀ Y, ∃ T B, m.transform_y Y = .val T ∧ m.backtransform_y T = .val B ∧
      m.transform_y B = .val T) ∧
    (∀ C, ∃ T B, m.transform_p_var C = .val T ∧ m.backtransform_p_var T = .val B ∧
      m.transform_p_var B = .val T) ∧
    (∀ C, ∃ T B, m.transform_p_cov C = .val T ∧ m.backtransform_p_cov T = .val B ∧
      m.transform_p_cov B = .val T) ∧
    (∀ C, ∃ T B, m.transform_y_var C = .val T ∧ m.backtransform_y_var T = .val B ∧
      m.transform_y_var B = .val T) ∧
    (∀ C, ∃ T B, m.transform_y_cov C = .val T ∧ m.backtransform_y_cov T = .val B ∧
      m.transform_y_cov B = .val T) := by
  have hyz : ∀ c ∈ ym.zip ys, c.2 ≠ 0 := fun c hc => hys c.2 (List.of_mem_zip hc).2
  have hnzp : ∀ c ∈ (mn.drop m.dim_x).zip (mx.drop m.dim_x), c.2 - c.1 ≠ 0 := by
    intro c hc
    rw [zip_drop_comm] at hc
    exact hnz c (List.mem_of_mem_drop hc)
  have hysp : ∀ sd ∈ ys, sd ≠ 0 := hys
  refine ⟨fun Z => ?_, fun Y => ?_, fun C => ?_, fun C => ?_, fun C => ?_, fun C => ?_⟩
  · refine ⟨box_trans Z mn mx false, box_trans (box_trans Z mn mx false) mn mx true,
      ?_, ?_, ?_⟩
    · simp [GPModel.transform_z, GPModel.transform, hz1, hz2]
    · simp [GPModel.backtransform_z, GPModel.backtransform, GPModel.transform, hz1, hz2]
    · simp only [GPModel.transform_z, GPModel.transform, hz1, hz2]
      exact congrArg TransResult.val (box_roundtrip mn mx hnz Z)
  · refine ⟨mean_trans Y ym ys false, mean_trans (mean_trans Y ym ys false) ym ys true,
      ?_, ?_, ?_⟩
    · simp [GPModel.transform_y, GPModel.transform, hy1, hy2]
    · simp [GPModel.backtransform_y, GPModel.backtransform, GPModel.transform, hy1, hy2]
    · simp only [GPModel.transform_y, GPModel.transform, hy1, hy2]
      exact congrArg TransResult.val (mean_roundtrip ym ys hyz Y)
  · refine ⟨box_var_trans C (mn.drop m.dim_x) (mx.drop m.dim_x) false,
      box_var_trans (box_var_trans C (mn.drop m.dim_x) (mx.drop m.dim_x) false)
        (mn.drop m.dim_x) (mx.drop m.dim_x) true, ?_, ?_, ?_⟩
    · simp [GPModel.transform_p_var, GPModel.transform, GPModel.pmin, GPModel.pmax, hz1, hz2]
    · simp [GPModel.backtransform_p_var, GPModel.backtransform, GPModel.transform,
        GPModel.pmin, GPModel.pmax, hz1, hz2]
    · simp only [GPModel.transform_p_var, GPModel.transform, GPModel.pmin, GPModel.pmax,
        hz1, hz2, Option.map_some']
      exact congrArg TransResult.val (box_var_roundtrip _ _ hnzp C)
  · refine ⟨box_cov_trans C (mn.drop m.dim_x) (mx.drop m.dim_x) false,
      box_cov_trans (box_cov_trans C (mn.drop m.dim_x) (mx.drop m.dim_x) false)
        (mn.drop m.dim_x) (mx.drop m.dim_x) true, ?_, ?_, ?_⟩
    · simp [GPModel.transform_p_cov, GPModel.transform, GPModel.pmin, GPModel.pmax, hz1, hz2]
    · simp [GPModel.backtransform_p_cov, GPModel.backtransform, GPModel.transform,
        GPModel.pmin, GPModel.pmax, hz1, hz2]
    · simp only [GPModel.transform_p_cov, GPModel.transform, GPModel.pmin, GPModel.pmax,
        hz1, hz2, Option.map_some']
      exact congrArg TransResult.val (box_cov_roundtrip _ _ hnzp C)
  · refine ⟨mean_var_trans C ym ys false,
      mean_var_trans (mean_var_trans C ym ys false) ym ys true, ?_, ?_, ?_⟩
    · simp [GPModel.transform_y_var, GPModel.transform, hy1, hy2]
    · simp [GPModel.backtransform_y_var, GPModel.backtransform, GPModel.transform, hy1, hy2]
    · simp only [GPModel.transform_y_var, GPModel.transform, hy1, hy2]
      exact congrArg TransResult.val (mean_var_roundtrip ym ys hyz C)
  · refine ⟨mean_cov_trans C ym ys false,
      mean_cov_trans (mean_cov_trans C ym ys false) ym ys true, ?_, ?_, ?_⟩
    · simp [GPModel.transform_y_cov, GPModel.transform, hy1, hy2]
    · simp [GPModel.backtransform_y_cov, GPModel.backtransform, GPModel.transform, hy1, hy2]
    · simp only [GPModel.transform_y_cov, GPModel.transform, hy1, hy2]
      exact congrArg TransResult.val (mean_cov_roundtrip ym ys hysp C)

/-- Witness for C7 on a concrete model and array. -/
theorem C7_transform_roundtrips_witness :
    ∃ T B, mC7.transform_z [[1, 2]] = .val T ∧ mC7.backtransform_z T = .val B ∧
      mC7.transform_z B = .val T :=
  (C7_transform_roundtrips mC7 [0, 1] [2, 3] [5] [2] rfl rfl rfl rfl
    (by intro c hc
        simp only [List.zip_cons_cons, List.zip_nil_right, List.mem_cons,
          List.not_mem_nil, or_false] at hc
        rcases hc with rfl | rfl <;> norm_num)
    (by intro sd hsd
        simp only [List.mem_cons, List.not_mem_nil, or_false] at hsd
        subst hsd; norm_num)).1 [[1, 2]]

/-! ### C3: symmetry of the stored covariance — entry and shape lemmas -/

theorem getD_map_mul (c : ℚ) (row : Vec) (j : ℕ) :
    (row.map (c * ·)).getD j 0 = c * row.getD j 0 := by
  rcases lt_or_le j row.length with hj | hj
  · rw [List.getD_eq_getElem?_getD, List.getElem?_map, List.getElem?_eq_getElem hj,
      List.getD_eq_getElem?_getD, List.getElem?_eq_getElem hj]
    rfl
  · rw [getD_len_le _ _ _ (by simpa using hj), getD_len_le _ _ _ hj, mul_zero]

theorem entry_scalarMul (c : ℚ) (A : Mat) (i j : ℕ) :
    entry (scalarMul c A) i j = c * entry A i j := by
  unfold entry scalarMul
  rcases lt_or_le i A.length with hi | hi
  · have houter : (A.map (List.map (c * ·))).getD i [] = (A.getD i []).map (c * ·) := by
      rw [List.getD_eq_getElem?_getD, List.getElem?_map, List.getElem?_eq_getElem hi,
        List.getD_eq_getElem?_getD, List.getElem?_eq_getElem hi]
      rfl
    rw [houter, getD_map_mul]
  · have hl1 : (A.map (List.map (c * ·))).length ≤ i := by simpa using hi
    rw [getD_len_le _ _ _ hl1, getD_len_le _ _ _ hi]
    simp

theorem isShape_iff (A : Mat) (a b : ℕ) :
    isShape A a b = true ↔ A.length = a ∧ ∀ r ∈ A, r.length = b := by
  simp [isShape, List.all_eq_true]

theorem isShape_zerosMat (D : ℕ) : isShape (zerosMat D D) D D = true := by
  rw [isShape_iff]
  refine ⟨by simp [zerosMat], fun r hr => ?_⟩
  rw [List.eq_of_mem_replicate hr]
  simp

theorem entry_zerosMat (a b i j : ℕ) : entry (zerosMat a b) i j = 0 := by
  unfold entry zerosMat
  rcases lt_or_le i a with hi | hi
  · have houter : (List.replicate a (List.replicate b (0 : ℚ))).getD i [] =
        List.replicate b 0 := by
      rw [List.getD_eq_getElem?_getD, List.getElem?_replicate_of_lt hi]
      rfl
    rw [houter]
    rcases lt_or_le j b with hj | hj
    · rw [List.getD_eq_getElem?_getD, List.getElem?_replicate_of_lt hj]
      rfl
    · rw [getD_len_le _ _ _ (by simpa using hj)]
  · have hl1 : (List.replicate a (List.replicate b (0 : ℚ))).length ≤ i := by simpa using hi
    rw [getD_len_le _ _ _ hl1]
    rfl

theorem symmMat_zerosMat (D : ℕ) : symmMat (zerosMat D D) := fun i j => by
  rw [entry_zerosMat, entry_zerosMat]

theorem symmMat_diagMat (w : Vec) : symmMat (diagMat w) := by
  intro i j
  rw [entry_diagMat, entry_diagMat]
  by_cases hij : i = j
  · subst hij; rfl
  · rw [if_neg hij, if_neg (fun h => hij h.symm)]

theorem shape_getD_len (A : Mat) (a b : ℕ) (h : isShape A a b = true) (i : ℕ) :
    (A.getD i []).length = if i < a then b else 0 := by
  obtain ⟨h1, h2⟩ := (isShape_iff A a b).mp h
  rcases lt_or_le i a with hi | hi
  · rw [if_pos hi]
    have hiA : i < A.length := h1 ▸ hi
    have : A.getD i [] = A[i] := by
      rw [List.getD_eq_getElem?_getD, List.getElem?_eq_getElem hiA]
      rfl
    rw [this]
    exact h2 _ (List.getElem_mem hiA)
  · rw [if_neg (not_lt.mpr hi), getD_len_le _ _ _ (by rw [h1]; exact hi)]
    rfl

theorem isShape_matTmul (A B : Mat) (D : ℕ) : isShape (matTmul A B D) D D = true := by
  rw [isShape_iff]
  refine ⟨by simp [matTmul], fun r hr => ?_⟩
  unfold matTmul at hr
  obtain ⟨i, -, rfl⟩ := List.mem_map.mp hr
  simp

theorem isShape_scalarMul (c : ℚ) (A : Mat) (a b : ℕ) (h : isShape A a b = true) :
    isShape (scalarMul c A) a b = true := by
  obtain ⟨h1, h2⟩ := (isShape_iff A a b).mp h
  rw [isShape_iff]
  refine ⟨by simp [scalarMul, h1], fun r hr => ?_⟩
  unfold scalarMul at hr
  obtain ⟨r0, hr0, rfl⟩ := List.mem_map.mp hr
  simp [h2 r0 hr0]

theorem isShape_matAdd (A B : Mat) (a b : ℕ)
    (hA : isShape A a b = true) (hB : isShape B a b = true) :
    isShape (matAdd A B) a b = true := by
  obtain ⟨hA1, hA2⟩ := (isShape_iff A a b).mp hA
  obtain ⟨hB1, hB2⟩ := (isShape_iff B a b).mp hB
  rw [isShape_iff]
  refine ⟨by simp [matAdd, List.length_zipWith, hA1, hB1], fun r hr => ?_⟩
  unfold matAdd at hr
  obtain ⟨k, hk, hkr⟩ := List.mem_iff_getElem.mp hr
  rw [List.length_zipWith, hA1, hB1, Nat.min_self] at hk
  rw [← hkr, List.getElem_zipWith, List.length_zipWith,
    hA2 _ (List.getElem_mem (hA1 ▸ hk)), hB2 _ (List.getElem_mem (hB1 ▸ hk))]
  exact Nat.min_self b

theorem getD_zipWith_add (u v : Vec) (j : ℕ) (h : u.length = v.length) :
    (List.zipWith (· + ·) u v).getD j 0 = u.getD j 0 + v.getD j 0 := by
  induction u generalizing v j with
  | nil =>
    have hv : v = [] := by
      cases v with
      | nil => rfl
      | cons b bs => simp at h
    subst hv
    simp [List.getD]
  | cons a u ih =>
    cases v with
    | nil => simp at h
    | cons b bs =>
      cases j with
      | zero => rfl
      | succ j =>
        show (List.zipWith (· + ·) u bs).getD j 0 = u.getD j 0 + bs.getD j 0
        exact ih bs j (by simpa using h)

theorem matAdd_getD (A B : Mat) (i : ℕ) (h : A.length = B.length) :
    (matAdd A B).getD i [] = List.zipWith (· + ·) (A.getD i []) (B.getD i []) := by
  unfold matAdd
  induction A generalizing B i with
  | nil =>
    have hBnil : B = [] := by
      cases B with
      | nil => rfl
      | cons b bs => simp at h
    subst hBnil
    simp
  | cons a A ih =>
    cases B with
    | nil => simp at h
    | cons b bs =>
      cases i with
      | zero => rfl
      | succ i => exact ih bs i (by simpa using h)

theorem entry_matAdd_shape (A B : Mat) (D : ℕ)
    (hA : isShape A D D = true) (hB : isShape B D D = true) (i j : ℕ) :
    entry (matAdd A B) i j = entry A i j + entry B i j := by
  have hA1 := ((isShape_iff A D D).mp hA).1
  have hB1 := ((isShape_iff B D D).mp hB).1
  have hrowA := shape_getD_len A D D hA i
  have hrowB := shape_getD_len B D D hB i
  unfold entry
  rw [matAdd_getD A B i (by rw [hA1, hB1]),
    getD_zipWith_add _ _ _ (by rw [hrowA, hrowB])]

theorem entry_matTmul_lt (A B : Mat) (D i j : ℕ) (hi : i < D) (hj : j < D) :
    entry (matTmul A B D) i j =
      sumListQ ((A.zip B).map fun ab => ab.1.getD i 0 * ab.2.getD j 0) := by
  unfold entry matTmul
  rw [getD_range_map _ _ _ _ hi, getD_range_map _ _ _ _ hj]

theorem entry_ge_zero (A : Mat) (a b i j : ℕ) (hA : isShape A a b = true)
    (h : a ≤ i ∨ b ≤ j) : entry A i j = 0 := by
  obtain ⟨h1, -⟩ := (isShape_iff A a b).mp hA
  rcases h with hi | hj
  · unfold entry
    rw [getD_len_le A i [] (by rw [h1]; exact hi)]
    rfl
  · unfold entry
    have hlen : (A.getD i []).length ≤ j := by
      rw [shape_getD_len A a b hA i]
      split
      · exact hj
      · exact Nat.zero_le j
    rw [getD_len_le _ _ _ hlen]

theorem entry_matTmul_ge (A B : Mat) (D i j : ℕ) (h : D ≤ i ∨ D ≤ j) :
    entry (matTmul A B D) i j = 0 :=
  entry_ge_zero (matTmul A B D) D D i j (isShape_matTmul A B D) h

theorem entry_matTmul_symm (A B : Mat) (D i j : ℕ) :
    entry (matTmul A B D) i j = entry (matTmul B A D) j i := by
  rcases lt_or_le i D with hi | hi
  · rcases lt_or_le j D with hj | hj
    · rw [entry_matTmul_lt A B D i j hi hj, entry_matTmul_lt B A D j i hj hi]
      congr 1
      rw [← List.zip_swap A B, List.map_map]
      refine List.map_congr_left (fun ab _ => ?_)
      show ab.1.getD i 0 * ab.2.getD j 0 = ab.2.getD j 0 * ab.1.getD i 0
      exact mul_comm _ _
    · rw [entry_matTmul_ge A B D i j (Or.inr hj), entry_matTmul_ge B A D j i (Or.inl hj)]
  · rw [entry_matTmul_ge A B D i j (Or.inl hi), entry_matTmul_ge B A D j i (Or.inr hi)]

theorem symm_shape_step_diag (iA dmu : Mat) (c : ℚ) (D : ℕ)
    (h : symmMat iA ∧ isShape iA D D = true) :
    symmMat (matAdd iA (scalarMul c (matTmul dmu dmu D))) ∧
      isShape (matAdd iA (scalarMul c (matTmul dmu dmu D))) D D = true := by
  have hS := isShape_scalarMul c _ D D (isShape_matTmul dmu dmu D)
  refine ⟨fun i j => ?_, isShape_matAdd _ _ D D h.2 hS⟩
  rw [entry_matAdd_shape _ _ D h.2 hS, entry_matAdd_shape _ _ D h.2 hS,
    entry_scalarMul, entry_scalarMul, h.1 i j, entry_matTmul_symm dmu dmu D i j]

theorem symm_shape_step_cross (iA d1 d2 : Mat) (c12 c21 : ℚ) (D : ℕ) (hc : c12 = c21)
    (h : symmMat iA ∧ isShape iA D D = true) :
    symmMat (matAdd (matAdd iA (scalarMul c12 (matTmul d1 d2 D)))
        (scalarMul c21 (matTmul d2 d1 D))) ∧
      isShape (matAdd (matAdd iA (scalarMul c12 (matTmul d1 d2 D)))
        (scalarMul c21 (matTmul d2 d1 D))) D D = true := by
  have h12 := isShape_scalarMul c12 _ D D (isShape_matTmul d1 d2 D)
  have h21 := isShape_scalarMul c21 _ D D (isShape_matTmul d2 d1 D)
  have hmid := isShape_matAdd _ _ D D h.2 h12
  refine ⟨fun i j => ?_, isShape_matAdd _ _ D D hmid h21⟩
  rw [entry_matAdd_shape _ _ D hmid h21, entry_matAdd_shape _ _ D hmid h21,
    entry_matAdd_shape _ _ D h.2 h12, entry_matAdd_shape _ _ D h.2 h12,
    entry_scalarMul, entry_scalarMul, entry_scalarMul, entry_scalarMul,
    h.1 i j, hc, entry_matTmul_symm d1 d2 D i j, entry_matTmul_symm d2 d1 D i j]
  ring

theorem foldlM_except_inv {α β ε : Type} (P : β → Prop) (f : β → α → Except ε β) :
    ∀ (l : List α) (init : β), P init →
      (∀ b a, a ∈ l → P b → ∀ b', f b a = .ok b' → P b') →
      ∀ res, l.foldlM f init = .ok res → P res := by
  intro l
  induction l with
  | nil =>
    intro init hP _ res hres
    rw [List.foldlM_nil] at hres
    have := Except.ok.inj hres
    rwa [← this]
  | cons a l ih =>
    intro init hP hstep res hres
    rw [List.foldlM_cons] at hres
    cases hfa : f init a with
    | error e =>
      rw [hfa, exceptErrBind] at hres
      exact absurd hres (by simp)
    | ok b' =>
      rw [hfa, exceptOkBind] at hres
      exact ih b' (hstep init a (List.mem_cons_self _ _) hP b' hfa)
        (fun b a' ha' hb b'' hf => hstep b a' (List.mem_cons_of_mem _ ha') hb b'' hf)
        res hres

theorem crossTerms_inv (pm : Vec) (gps : List (List (Option Oracle))) (R J : List ℕ)
    (X W : Mat) (E D e1 : ℕ) (dmu1 : Mat) (hW : symmMat W) (iA : Mat)
    (hiA : symmMat iA ∧ isShape iA D D = true) (res : Mat)
    (h : crossTerms pm gps R J X W E D e1 dmu1 iA = .ok res) :
    symmMat res ∧ isShape res D D = true := by
  unfold crossTerms at h
  refine foldlM_except_inv (fun A => symmMat A ∧ isShape A D D = true) _ _ iA hiA ?_ res h
  intro b e2 _ hP b' hstep
  simp only [] at hstep
  by_cases hc : entry W e1 e2 = 0
  · rw [if_pos hc] at hstep
    have hb := Except.ok.inj hstep
    rwa [← hb]
  · rw [if_neg hc] at hstep
    cases hget : get_d_mu_d_p pm (gps.getD e2 []) R J X D with
    | error err =>
      rw [hget, exceptErrBind] at hstep
      exact absurd hstep (by simp)
    | ok dmu2 =>
      rw [hget, exceptOkBind] at hstep
      have hb := Except.ok.inj hstep
      rw [← hb]
      exact symm_shape_step_cross b dmu1 dmu2 _ _ D (hW e1 e2) hP

theorem computeIA_symm_shape (pm : Vec) (gps : List (List (Option Oracle)))
    (R J : List ℕ) (X W : Mat) (vecCase : Bool) (E D : ℕ)
    (hW : symmMat W) (res : Mat)
    (h : computeIA pm gps R J X W vecCase E D = .ok res) :
    symmMat res ∧ isShape res D D = true := by
  unfold computeIA at h
  refine foldlM_except_inv (fun A => symmMat A ∧ isShape A D D = true) _ _ _
    ⟨symmMat_zerosMat D, isShape_zerosMat D⟩ ?_ res h
  intro b e1 _ hP b' hstep
  simp only [] at hstep
  cases hget : get_d_mu_d_p pm (gps.getD e1 []) R J X D with
  | error err =>
    rw [hget, exceptErrBind] at hstep
    exact absurd hstep (by simp)
  | ok dmu1 =>
    rw [hget, exceptOkBind] at hstep
    cases vecCase with
    | true =>
      rw [if_pos rfl] at hstep
      have hb := Except.ok.inj hstep
      rw [← hb]
      exact symm_shape_step_diag b dmu1 _ D hP
    | false =>
      rw [if_neg Bool.false_ne_true] at hstep
      exact crossTerms_inv pm gps R J X W E D e1 dmu1 hW _
        (symm_shape_step_diag b dmu1 _ D hP) b' hstep

theorem entry_matFromFin {n : ℕ} (B : Matrix (Fin n) (Fin n) ℚ) (i j : ℕ)
    (hi : i < n) (hj : j < n) :
    entry (matFromFin B) i j = B ⟨i, hi⟩ ⟨j, hj⟩ := by
  unfold entry matFromFin
  have hi' : i < (List.ofFn fun i' => List.ofFn fun j' => B i' j').length := by
    rw [List.length_ofFn]; exact hi
  have houter : (List.ofFn fun i' => List.ofFn fun j' => B i' j').getD i [] =
      List.ofFn (fun j' => B ⟨i, hi⟩ j') := by
    rw [List.getD_eq_getElem?_getD, List.getElem?_eq_getElem hi', List.getElem_ofFn]
    rfl
  rw [houter]
  have hj' : j < (List.ofFn fun j' => B ⟨i, hi⟩ j').length := by
    rw [List.length_ofFn]; exact hj
  rw [List.getD_eq_getElem?_getD, List.getElem?_eq_getElem hj', List.getElem_ofFn]
  rfl

theorem isShape_matFromFin {n : ℕ} (B : Matrix (Fin n) (Fin n) ℚ) :
    isShape (matFromFin B) n n = true := by
  rw [isShape_iff]
  refine ⟨by simp [matFromFin], fun r hr => ?_⟩
  unfold matFromFin at hr
  obtain ⟨k, hk, hkr⟩ := List.mem_iff_getElem.mp hr
  rw [← hkr, List.getElem_ofFn]
  simp

theorem symmMat_matFromFin {n : ℕ} {B : Matrix (Fin n) (Fin n) ℚ}
    (hB : Matrix.transpose B = B) : symmMat (matFromFin B) := by
  intro i j
  rcases lt_or_le i n with hi | hi
  · rcases lt_or_le j n with hj | hj
    · rw [entry_matFromFin B i j hi hj, entry_matFromFin B j i hj hi]
      have h2 : B ⟨i, hi⟩ ⟨j, hj⟩ = Matrix.transpose B ⟨j, hj⟩ ⟨i, hi⟩ := rfl
      rw [h2, hB]
    · rw [entry_ge_zero _ n n i j (isShape_matFromFin B) (Or.inr hj),
        entry_ge_zero _ n n j i (isShape_matFromFin B) (Or.inl hj)]
  · rw [entry_ge_zero _ n n i j (isShape_matFromFin B) (Or.inl hi),
      entry_ge_zero _ n n j i (isShape_matFromFin B) (Or.inr hi)]

theorem npLinalgInv_symm {M W : Mat} (hsym : symmMat M) (h : npLinalgInv M = some W) :
    symmMat W := by
  unfold npLinalgInv at h
  by_cases hdet : (toFinMat M).det = 0
  · rw [if_pos hdet] at h
    exact absurd h (by simp)
  · rw [if_neg hdet] at h
    have hW := (Option.some_injective _ h).symm
    have hMt : Matrix.transpose (toFinMat M) = toFinMat M := by
      funext i j
      show entry M (j : ℕ) (i : ℕ) = entry M (i : ℕ) (j : ℕ)
      exact hsym j i
    have hBt : Matrix.transpose (((toFinMat M).det)⁻¹ • (toFinMat M).adjugate) =
        ((toFinMat M).det)⁻¹ • (toFinMat M).adjugate := by
      rw [Matrix.transpose_smul, Matrix.adjugate_transpose, hMt]
    rw [hW]
    exact symmMat_matFromFin hBt

theorem npLinalgInv_shape {M W : Mat} (h : npLinalgInv M = some W) :
    isShape W M.length M.length = true := by
  unfold npLinalgInv at h
  by_cases hdet : (toFinMat M).det = 0
  · rw [if_pos hdet] at h
    exact absurd h (by simp)
  · rw [if_neg hdet] at h
    have hW := (Option.some_injective _ h).symm
    rw [hW]
    exact isShape_matFromFin _

theorem cpcIA_symm_shape {m : GPMarginal} {X : Mat} {mnv : MeasNoise} {iA : Mat}
    (hsym : mnv.symm) (h : cpcIA m X mnv = .ok iA) :
    symmMat iA ∧ isShape iA m.param_mean.length m.param_mean.length = true := by
  cases mnv with
  | scalar s => exact computeIA_symm_shape _ _ _ _ _ _ _ _ _ (symmMat_diagMat _) iA h
  | vec v => exact computeIA_symm_shape _ _ _ _ _ _ _ _ _ (symmMat_diagMat _) iA h
  | mat M =>
    cases hinv : npLinalgInv M with
    | none =>
      have herr : cpcIA m X (.mat M) = .error .singularNoise := by
        simp only [cpcIA, buildImeasvar, hinv]
      rw [herr] at h
      exact absurd h (by simp)
    | some Wn =>
      have hred : cpcIA m X (.mat M) = computeIA m.param_mean m.gps
          (binary_dimensions X m.bin_var).1 (binary_dimensions X m.bin_var).2.2
          (colSelect X (binary_dimensions X m.bin_var).2.1) Wn false
          m.gps.length m.param_mean.length := by
        simp only [cpcIA, buildImeasvar, hinv, MeasNoise.isVecCase]
      rw [hred] at h
      exact computeIA_symm_shape _ _ _ _ _ _ _ _ _ (npLinalgInv_symm hsym hinv) iA h

/-- C3: for a symmetric measurement-noise model, a successful
`compute_param_covar` stores a symmetric `dim_p × dim_p` covariance: the
accumulated `iA` is built from `XᵀX`-type products and symmetric cross
pairs, and the inverse of a symmetric matrix is symmetric. -/
theorem C3_Sigma_symmetric (m : GPMarginal) (X : Mat) (mnv : MeasNoise) (m' : GPMarginal)
    (hsym : mnv.symm) (hok : compute_param_covar m X mnv = (.ok (), m')) :
    ∃ S, m'.Sigma = some S ∧
      isShape S m.param_mean.length m.param_mean.length = true ∧ symmMat S := by
  rcases hiA : cpcIA m X mnv with e | iA
  · rw [cpc_err hiA] at hok
    exact absurd (Prod.mk.injEq _ _ _ _ ▸ hok).1 (by simp)
  rcases hinv : npLinalgInv iA with _ | S
  · rw [cpc_sing hiA hinv] at hok
    exact absurd (Prod.mk.injEq _ _ _ _ ▸ hok).1 (by simp)
  rcases hset : m.Sigma_set (.ndarray S) with _ | m''
  · rw [cpc_assert hiA hinv hset] at hok
    exact absurd (Prod.mk.injEq _ _ _ _ ▸ hok).1 (by simp)
  · rw [cpc_ok hiA hinv hset] at hok
    have hm' : m'' = m' := (Prod.mk.injEq _ _ _ _ ▸ hok).2
    obtain ⟨hIAsym, hIAshape⟩ := cpcIA_symm_shape hsym hiA
    have hlen : iA.length = m.param_mean.length := ((isShape_iff _ _ _).mp hIAshape).1
    have hSsym : symmMat S := npLinalgInv_symm hIAsym hinv
    have hSshape : isShape S m.param_mean.length m.param_mean.length = true := by
      have := npLinalgInv_shape hinv
      rwa [hlen] at this
    obtain ⟨MS, hv, -, hrec⟩ := Sigma_set_inv hset
    have hSM : S = MS := by injection hv
    subst hSM
    refine ⟨S, ?_, hSshape, hSsym⟩
    rw [← hm', hrec]
    rfl

/-- Witness for C3: a successful scalar-noise run; the stored covariance
is symmetric of shape `1 × 1`. -/
theorem C3_Sigma_symmetric_witness :
    ∃ S, ({ mC3 with Sigma_stored := some [[1]] } : GPMarginal).Sigma = some S ∧
      isShape S mC3.param_mean.length mC3.param_mean.length = true ∧ symmMat S := by
  have h1 : cpcIA mC3 [[2]] (.scalar 1) = .ok [[1]] := by
    norm_num [cpcIA, mC3, GPMarginal.init, binary_dimensions, allPatterns, colSelect,
      buildImeasvar, diagMat, computeIA, get_d_mu_d_p, dmuStep, d_mu_d_p, get_Z, selectRows,
      scatterRows, matTmul, matAdd, scalarMul, sumListQ, zerosMat, entry,
      List.foldlM, exceptOkBind, exceptErrBind, List.range_succ, MeasNoise.isVecCase,
      List.findIdx_cons, List.findIdx_nil, List.isEmpty_nil, cond_true, cond_false]
  have h2 : npLinalgInv [[(1 : ℚ)]] = some [[1]] := by
    have := npLinalgInv_singleton (a := (1 : ℚ)) one_ne_zero
    simpa using this
  have h3 : mC3.Sigma_set (.ndarray [[1]]) =
      some { mC3 with Sigma_stored := some [[1]] } := rfl
  exact C3_Sigma_symmetric mC3 [[2]] (.scalar 1) _ trivial (cpc_ok h1 h2 h3)

end GPdoemd
